import Mathlib

/-!
Verification of the NoteTimes note-taking application.

This file gives a shallow embedding, in Lean, of the text-processing,
storage, session and routing logic of the NoteTimes repository: the
client components notes-area.tsx (processContent, countVariableMentions,
sortedNotes, handleInputChange) and note-download.tsx
(downloadNotesAsHTML), the shared schema.ts (table shapes, MemStorage,
createSessionMiddleware) and the server db-storage.ts (DbStorage and the
route table of registerRoutes), together with theorems settling the
specification claims about that code.

Strings are modelled as lists of characters.  The JavaScript regular
expressions used by the code are small and fixed, and are modelled by
direct scanners:

* the marker regex (a zero-width space, one or more characters other than
  a zero-width space, a zero-width space; global flag) is modelled by
  jsReplaceMarkers, a left-to-right scanner that mirrors the regex
  engine: at a zero-width space it takes the maximal run of non-marker
  characters, requires the run to be nonempty and to be followed by a
  closing marker, and otherwise moves one character forward;
* the variable-reference regex (a slash, the variable name, a word
  boundary; global flag) is modelled by matchSlash, jsReplaceSlashName
  and jsCountSlashName.  The word boundary has the JavaScript semantics:
  exactly one of the two neighbouring characters is a word character
  (ASCII letter, digit or underscore), the end of the string counting as
  a non-word position.  Variable names are treated as literal text, which
  is faithful whenever the name contains no regex metacharacters; the
  theorems whose content depends on boundary behaviour carry the
  hypothesis that the name consists of word characters.

All definitions are computable, so witnesses evaluate by decide.
-/

namespace NoteTimes

/-- Zero-width space, U+200B, the invisible marker character used by
insertOption in notes-area.tsx to delimit resolved variable values. -/
def zws : Char := Char.ofNat 0x200B

/-- Word character in the sense of the JavaScript regex word-character
class: ASCII letters, digits and the underscore. -/
def isWordChar (c : Char) : Bool :=
  c.isAlphanum || c == '_'

/-- JavaScript toLowerCase restricted to ASCII, as applied to the search
term and candidate texts by handleInputChange in notes-area.tsx. -/
def jsLowerChar (c : Char) : Char :=
  if 'A' ≤ c ∧ c ≤ 'Z' then Char.ofNat (c.toNat + 32) else c

/-- Lower-casing of a whole string (list of characters). -/
def jsLower (l : List Char) : List Char := l.map jsLowerChar

/-- Fuel-indexed scanner for the global marker regex with a replacement
built by f from the captured run.  With fuel at least the length of the
input the result does not depend on the fuel (replMarkAux_fuel). -/
def replMarkAux (f : List Char → List Char) : Nat → List Char → List Char
  | _, [] => []
  | 0, l => l
  | n + 1, c :: rest =>
    if c = zws then
      match rest.dropWhile (fun d => d != zws) with
      | [] => c :: replMarkAux f n rest
      | _ :: after =>
        if rest.takeWhile (fun d => d != zws) = [] then c :: replMarkAux f n rest
        else f (rest.takeWhile (fun d => d != zws)) ++ replMarkAux f n after
    else c :: replMarkAux f n rest

/-- Global replacement of every marker-delimited run, the model of the
JavaScript replace call on the marker regex with global flag. -/
def jsReplaceMarkers (f : List Char → List Char) (l : List Char) : List Char :=
  replMarkAux f l.length l

/-- Word-boundary test of the regex engine between a previous character
and the rest of the input: the boundary holds when exactly one side is a
word character, the end of input counting as non-word. -/
def boundaryAfter (prev : Char) (rest : List Char) : Bool :=
  match rest with
  | [] => isWordChar prev
  | d :: _ => isWordChar prev != isWordChar d

/-- Match of the variable-reference regex at the head of the input: a
slash, then the variable name, then a word boundary.  The character
before the boundary is the last character of the slash-name pattern,
which is the slash itself when the name is empty. -/
def matchSlash (name : List Char) : List Char → Bool
  | [] => false
  | c :: rest =>
    c == '/' && name.isPrefixOf rest &&
      boundaryAfter (name.getLastD '/') (rest.drop name.length)

/-- Fuel-indexed scanner replacing every match of the variable-reference
regex by val, mirroring the regex engine: replace at the leftmost match
and continue after it. -/
def replSlashAux (name val : List Char) : Nat → List Char → List Char
  | _, [] => []
  | 0, l => l
  | n + 1, c :: rest =>
    if matchSlash name (c :: rest) then val ++ replSlashAux name val n (rest.drop name.length)
    else c :: replSlashAux name val n rest

/-- Global replacement of every match of the variable-reference regex by
val, the model of the replace calls of processContent, of
downloadNotesAsHTML and of downloadNotesAsMarkdown. -/
def jsReplaceSlashName (name val l : List Char) : List Char :=
  replSlashAux name val l.length l

/-- Fuel-indexed counter of the matches found by the global
variable-reference regex, mirroring the match call of
countVariableMentions: count the leftmost match and continue after it. -/
def countSlashAux (name : List Char) : Nat → List Char → Nat
  | _, [] => 0
  | 0, _ => 0
  | n + 1, c :: rest =>
    if matchSlash name (c :: rest) then 1 + countSlashAux name n (rest.drop name.length)
    else countSlashAux name n rest

/-- Number of matches of the global variable-reference regex, the model
of the length of the match array in countVariableMentions. -/
def jsCountSlashName (name l : List Char) : Nat :=
  countSlashAux name l.length l

/-- Number of positions of the content at which the variable-reference
regex matches.  This is the specification reading of the number of
occurrences of the slash-name token at a word boundary. -/
def occCount (name : List Char) : List Char → Nat
  | [] => 0
  | c :: rest => (if matchSlash name (c :: rest) then 1 else 0) + occCount name rest

theorem length_dropWhile_le (p : Char → Bool) (l : List Char) :
    (l.dropWhile p).length ≤ l.length := by
  induction l with
  | nil => simp [List.dropWhile]
  | cons c t ih =>
    by_cases h : p c
    · simpa [List.dropWhile, h] using Nat.le_succ_of_le ih
    · simp [List.dropWhile, h]

theorem replMarkAux_nil (f : List Char → List Char) (n : Nat) :
    replMarkAux f n [] = [] := by
  cases n <;> rfl

theorem replMarkAux_fuel (f : List Char → List Char) :
    ∀ n m l, l.length ≤ n → l.length ≤ m → replMarkAux f n l = replMarkAux f m l := by
  intro n
  induction n with
  | zero =>
    intro m l hn _
    have hl : l = [] := List.eq_nil_of_length_eq_zero (Nat.le_zero.mp hn)
    subst hl
    rw [replMarkAux_nil, replMarkAux_nil]
  | succ n ih =>
    intro m l hn hm
    cases l with
    | nil => rw [replMarkAux_nil, replMarkAux_nil]
    | cons c rest =>
      cases m with
      | zero => simp at hm
      | succ m =>
        have hrn : rest.length ≤ n := by simpa using hn
        have hrm : rest.length ≤ m := by simpa using hm
        simp only [replMarkAux]
        by_cases hc : c = zws
        · simp only [if_pos hc]
          cases hdw : rest.dropWhile (fun d => d != zws) with
          | nil => rw [ih m rest hrn hrm]
          | cons x after =>
            have hal : after.length + 1 ≤ rest.length := by
              have := length_dropWhile_le (fun d => d != zws) rest
              rw [hdw] at this
              simpa using this
            by_cases ht : rest.takeWhile (fun d => d != zws) = []
            · simp only [if_pos ht]
              rw [ih m rest hrn hrm]
            · simp only [if_neg ht]
              rw [ih m after (by omega) (by omega)]
        · simp only [if_neg hc]
          rw [ih m rest hrn hrm]

theorem jsReplaceMarkers_nil (f : List Char → List Char) :
    jsReplaceMarkers f [] = [] := rfl

theorem jsReplaceMarkers_cons (f : List Char → List Char) (c : Char) (rest : List Char) :
    jsReplaceMarkers f (c :: rest) =
      if c = zws then
        match rest.dropWhile (fun d => d != zws) with
        | [] => c :: jsReplaceMarkers f rest
        | _ :: after =>
          if rest.takeWhile (fun d => d != zws) = [] then c :: jsReplaceMarkers f rest
          else f (rest.takeWhile (fun d => d != zws)) ++ jsReplaceMarkers f after
      else c :: jsReplaceMarkers f rest := by
  show replMarkAux f (c :: rest).length (c :: rest) = _
  simp only [List.length_cons, replMarkAux, jsReplaceMarkers]
  by_cases hc : c = zws
  · simp only [if_pos hc]
    cases hdw : rest.dropWhile (fun d => d != zws) with
    | nil => rfl
    | cons x after =>
      have hal : after.length + 1 ≤ rest.length := by
        have := length_dropWhile_le (fun d => d != zws) rest
        rw [hdw] at this
        simpa using this
      by_cases ht : rest.takeWhile (fun d => d != zws) = []
      · simp only [if_pos ht]
      · simp only [if_neg ht]
        rw [replMarkAux_fuel f rest.length after.length after (by omega) (by omega)]
  · simp only [if_neg hc]

theorem replSlashAux_nil (name val : List Char) (n : Nat) :
    replSlashAux name val n [] = [] := by
  cases n <;> rfl

theorem replSlashAux_fuel (name val : List Char) :
    ∀ n m l, l.length ≤ n → l.length ≤ m →
      replSlashAux name val n l = replSlashAux name val m l := by
  intro n
  induction n with
  | zero =>
    intro m l hn _
    have hl : l = [] := List.eq_nil_of_length_eq_zero (Nat.le_zero.mp hn)
    subst hl
    rw [replSlashAux_nil, replSlashAux_nil]
  | succ n ih =>
    intro m l hn hm
    cases l with
    | nil => rw [replSlashAux_nil, replSlashAux_nil]
    | cons c rest =>
      cases m with
      | zero => simp at hm
      | succ m =>
        have hrn : rest.length ≤ n := by simpa using hn
        have hrm : rest.length ≤ m := by simpa using hm
        have hdl : (rest.drop name.length).length ≤ rest.length := by
          simp [List.length_drop]
        simp only [replSlashAux]
        by_cases hmt : matchSlash name (c :: rest) = true
        · simp only [if_pos hmt]
          rw [ih m (rest.drop name.length) (by omega) (by omega)]
        · simp only [if_neg hmt]
          rw [ih m rest hrn hrm]

theorem jsReplaceSlashName_nil (name val : List Char) :
    jsReplaceSlashName name val [] = [] := rfl

theorem jsReplaceSlashName_cons (name val : List Char) (c : Char) (rest : List Char) :
    jsReplaceSlashName name val (c :: rest) =
      if matchSlash name (c :: rest) then
        val ++ jsReplaceSlashName name val (rest.drop name.length)
      else c :: jsReplaceSlashName name val rest := by
  show replSlashAux name val (c :: rest).length (c :: rest) = _
  simp only [List.length_cons, replSlashAux, jsReplaceSlashName]
  by_cases hmt : matchSlash name (c :: rest) = true
  · simp only [if_pos hmt]
    rw [replSlashAux_fuel name val rest.length (rest.drop name.length).length
      (rest.drop name.length) (by simp [List.length_drop]) (by omega)]
  · simp only [if_neg hmt]

theorem takeWhile_until_zws (v b : List Char) (hv : zws ∉ v) :
    (v ++ zws :: b).takeWhile (fun d => d != zws) = v := by
  induction v with
  | nil => simp [List.takeWhile_cons]
  | cons x t ih =>
    have hx : x ≠ zws := fun h => hv (h ▸ List.mem_cons_self x t)
    have ht : zws ∉ t := fun h => hv (List.mem_cons_of_mem x h)
    simp [List.takeWhile_cons, hx, ih ht]

theorem dropWhile_until_zws (v b : List Char) (hv : zws ∉ v) :
    (v ++ zws :: b).dropWhile (fun d => d != zws) = zws :: b := by
  induction v with
  | nil => simp [List.dropWhile_cons]
  | cons x t ih =>
    have hx : x ≠ zws := fun h => hv (h ▸ List.mem_cons_self x t)
    have ht : zws ∉ t := fun h => hv (List.mem_cons_of_mem x h)
    simp [List.dropWhile_cons, hx, ih ht]

/-- Distribution of the marker replacement over an explicit leftmost
marker pair: the text before it, containing no marker character, passes
through unchanged, the delimited run is handed to the replacement, and
scanning resumes after the closing marker. -/
theorem jsReplaceMarkers_append (f : List Char → List Char) (a v b : List Char)
    (ha : zws ∉ a) (hv0 : v ≠ []) (hv : zws ∉ v) :
    jsReplaceMarkers f (a ++ (zws :: (v ++ (zws :: b)))) =
      a ++ (f v ++ jsReplaceMarkers f b) := by
  induction a with
  | nil =>
    simp only [List.nil_append]
    rw [jsReplaceMarkers_cons]
    simp only [if_pos rfl, dropWhile_until_zws v b hv, takeWhile_until_zws v b hv]
    simp [hv0]
  | cons x t ih =>
    have hx : x ≠ zws := fun h => ha (h ▸ List.mem_cons_self x t)
    have ht : zws ∉ t := fun h => ha (List.mem_cons_of_mem x h)
    rw [List.cons_append, jsReplaceMarkers_cons]
    simp only [if_neg hx]
    rw [ih ht, List.cons_append]

theorem matchSlash_cons_of_ne (name : List Char) (c : Char) (rest : List Char)
    (hc : c ≠ '/') : matchSlash name (c :: rest) = false := by
  simp [matchSlash, hc]

theorem matchSlash_head (name b : List Char) :
    matchSlash name ('/' :: (name ++ b)) =
      boundaryAfter (name.getLastD '/') b := by
  have hp : name.isPrefixOf (name ++ b) = true :=
    List.isPrefixOf_iff_prefix.mpr (List.prefix_append name b)
  simp [matchSlash, hp, List.drop_left]

/-- Distribution of the slash-name replacement over an explicit leftmost
occurrence: text containing no slash passes through, the occurrence is
replaced when a word boundary follows it, and scanning resumes after the
occurrence. -/
theorem jsReplaceSlashName_append (name val a b : List Char)
    (ha : ('/' : Char) ∉ a)
    (hb : boundaryAfter (name.getLastD '/') b = true) :
    jsReplaceSlashName name val (a ++ ('/' :: (name ++ b))) =
      a ++ (val ++ jsReplaceSlashName name val b) := by
  induction a with
  | nil =>
    simp only [List.nil_append]
    rw [jsReplaceSlashName_cons, matchSlash_head name b]
    simp only [if_pos hb, List.drop_left]
  | cons x t ih =>
    have hx : x ≠ '/' := fun h => ha (h ▸ List.mem_cons_self x t)
    have ht : ('/' : Char) ∉ t := fun h => ha (List.mem_cons_of_mem x h)
    rw [List.cons_append, jsReplaceSlashName_cons, matchSlash_cons_of_ne name x _ hx]
    simp only [Bool.false_eq_true, if_false]
    rw [ih ht, List.cons_append]

/-- Row of the variables table of shared/schema.ts: an id, the owning
session, a name, and a list of candidate values. -/
structure Variable where
  id : String
  sessionId : String
  name : String
  values : List String
deriving DecidableEq

/-- Row of the notes table of shared/schema.ts.  The creation timestamp
is modelled as a natural number of milliseconds. -/
structure Note where
  id : String
  sessionId : String
  content : String
  originalContent : String
  tags : List String
  folder : String
  createdAt : Nat
deriving DecidableEq

/-- First value of a variable, or its name when the values list is
empty, as selected by processContent in notes-area.tsx. -/
def firstValueOrName (v : Variable) : String :=
  match v.values with
  | [] => v.name
  | x :: _ => x

/-- Result of processContent: the substituted text and the raw text. -/
structure ProcessedContent where
  content : List Char
  originalContent : List Char
deriving DecidableEq

/-- Model of processContent in notes-area.tsx: first remove the marker
pair around every resolved value (the replacement is the captured
group), then for each variable in array order replace every match of the
slash-name regex by the first value, or by the name when the values list
is empty; the raw text is returned unchanged as originalContent. -/
def processContent (vars : List Variable) (rawContent : List Char) : ProcessedContent :=
  { content :=
      vars.foldl
        (fun acc v => jsReplaceSlashName v.name.data (firstValueOrName v).data acc)
        (jsReplaceMarkers (fun run => run) rawContent),
    originalContent := rawContent }

/-- C1: on submission, processContent returns the raw typed text
unchanged as originalContent, and as content the raw text transformed by
first replacing every zero-width-space-delimited marker around a run v
by v itself, and then, for each session variable in order, replacing
every occurrence of the slash-name token at a word boundary by the
variable's first value, or by its name when the values list is empty.
The last two conjuncts characterise the two replacement passes on an
explicit leftmost occurrence. -/
theorem spec_C1 (vars : List Variable) (raw : List Char) :
    (processContent vars raw).originalContent = raw ∧
    (processContent vars raw).content =
      vars.foldl
        (fun acc v => jsReplaceSlashName v.name.data (firstValueOrName v).data acc)
        (jsReplaceMarkers (fun run => run) raw) ∧
    (∀ a v b : List Char, zws ∉ a → v ≠ [] → zws ∉ v →
      jsReplaceMarkers (fun run => run) (a ++ (zws :: (v ++ (zws :: b)))) =
        a ++ (v ++ jsReplaceMarkers (fun run => run) b)) ∧
    (∀ name val a b : List Char, ('/' : Char) ∉ a →
      boundaryAfter (name.getLastD '/') b = true →
      jsReplaceSlashName name val (a ++ ('/' :: (name ++ b))) =
        a ++ (val ++ jsReplaceSlashName name val b)) :=
  ⟨rfl, rfl,
   fun a v b ha hv0 hv => jsReplaceMarkers_append (fun run => run) a v b ha hv0 hv,
   fun name val a b ha hb => jsReplaceSlashName_append name val a b ha hb⟩

/-- Sample variable used in concrete instantiations. -/
def demoUser : Variable :=
  { id := "v1", sessionId := "s1", name := "user", values := ["John Doe", "Jane Smith"] }

theorem spec_C1_witness :
    (processContent [demoUser] "call /user now".data).originalContent = "call /user now".data ∧
    jsReplaceMarkers (fun run => run)
        ("ab".data ++ (zws :: ("Acme Inc".data ++ (zws :: " done".data)))) =
      "ab".data ++ ("Acme Inc".data ++ jsReplaceMarkers (fun run => run) " done".data) ∧
    jsReplaceSlashName "user".data "John Doe".data
        ("hi ".data ++ ('/' :: ("user".data ++ " x".data))) =
      "hi ".data ++ ("John Doe".data ++ jsReplaceSlashName "user".data "John Doe".data " x".data) :=
  ⟨(spec_C1 [demoUser] "call /user now".data).1,
   (spec_C1 [demoUser] "call /user now".data).2.2.1 "ab".data "Acme Inc".data " done".data
     (by decide) (by decide) (by decide),
   (spec_C1 [demoUser] "call /user now".data).2.2.2 "user".data "John Doe".data "hi ".data
     " x".data (by decide) (by decide)⟩

/-- Model of countVariableMentions in notes-area.tsx: for each session
variable, add the number of matches of its slash-name regex in the
stored content field of the note. -/
def countVariableMentions (vars : List Variable) (note : Note) : Nat :=
  vars.foldl (fun count v => count + jsCountSlashName v.name.data note.content.data) 0

theorem occCount_append_word (name seg t : List Char) (hseg : seg.all isWordChar = true) :
    occCount name (seg ++ t) = occCount name t := by
  induction seg with
  | nil => simp
  | cons x s ih =>
    have hx : isWordChar x = true := (List.all_eq_true.mp hseg) x (List.mem_cons_self x s)
    have hs : s.all isWordChar = true := by
      rw [List.all_eq_true] at hseg ⊢
      exact fun y hy => hseg y (List.mem_cons_of_mem x hy)
    have hslash : isWordChar '/' = false := by decide
    have hx' : x ≠ '/' := by
      intro h
      rw [h, hslash] at hx
      exact Bool.false_ne_true hx
    rw [List.cons_append]
    simp [occCount, matchSlash_cons_of_ne name x _ hx', ih hs]

theorem countSlashAux_eq_occCount (name : List Char) (hw : name.all isWordChar = true) :
    ∀ n l, l.length ≤ n → countSlashAux name n l = occCount name l := by
  intro n
  induction n with
  | zero =>
    intro l hl
    have h0 : l = [] := List.eq_nil_of_length_eq_zero (Nat.le_zero.mp hl)
    subst h0
    rfl
  | succ n ih =>
    intro l hl
    cases l with
    | nil => rfl
    | cons c rest =>
      have hrl : rest.length ≤ n := by simpa using hl
      simp only [countSlashAux, occCount]
      by_cases hmt : matchSlash name (c :: rest) = true
      · simp only [if_pos hmt]
        have hconj := hmt
        simp only [matchSlash, Bool.and_eq_true, beq_iff_eq] at hconj
        obtain ⟨⟨hc, hpre⟩, _⟩ := hconj
        obtain ⟨rest2, hrest⟩ := List.isPrefixOf_iff_prefix.mp hpre
        have hdrop : rest.drop name.length = rest2 := by
          rw [← hrest]
          exact List.drop_left name rest2
        have hlen : rest2.length ≤ n := by
          have : rest.length = name.length + rest2.length := by
            rw [← hrest, List.length_append]
          omega
        rw [hdrop, ih rest2 hlen, ← hrest, occCount_append_word name name rest2 hw]
      · simp only [if_neg hmt, ih rest hrl]
        omega

theorem jsCountSlashName_eq_occCount (name l : List Char)
    (hw : name.all isWordChar = true) :
    jsCountSlashName name l = occCount name l :=
  countSlashAux_eq_occCount name hw l.length l (le_refl _)

theorem foldl_add_eq_sum (g : Variable → Nat) (vars : List Variable) :
    ∀ init : Nat, vars.foldl (fun count v => count + g v) init = init + (vars.map g).sum := by
  induction vars with
  | nil => intro init; simp
  | cons v t ih =>
    intro init
    rw [List.foldl_cons, ih (init + g v), List.map_cons, List.sum_cons]
    omega

/-- Sort options of the notes list in notes-area.tsx. -/
inductive SortOption
  | newest
  | oldest
  | mentions
deriving DecidableEq

/-- Relation induced by the sortedNotes comparator of notes-area.tsx:
the note a may be placed before b exactly when the numeric comparator of
the source is nonpositive on the pair. -/
def noteLe (vars : List Variable) : SortOption → Note → Note → Prop
  | .newest, a, b => b.createdAt ≤ a.createdAt
  | .oldest, a, b => a.createdAt ≤ b.createdAt
  | .mentions, a, b => countVariableMentions vars b ≤ countVariableMentions vars a

instance (vars : List Variable) (s : SortOption) : DecidableRel (noteLe vars s) := by
  intro a b
  cases s <;> exact Nat.decLe _ _

/-- Model of the sortedNotes computation of notes-area.tsx: the
displayed (already filtered) notes sorted by the selected comparator
with a stable sort, as the JavaScript array sort. -/
def sortedNotes (vars : List Variable) (sortBy : SortOption) (notes : List Note) : List Note :=
  notes.insertionSort (noteLe vars sortBy)

theorem sortedNotes_mentions_sorted (vars : List Variable) (notes : List Note) :
    (sortedNotes vars .mentions notes).Pairwise
      (fun a b => countVariableMentions vars b ≤ countVariableMentions vars a) := by
  haveI : IsTotal Note (noteLe vars .mentions) :=
    ⟨fun a b => Nat.le_total (countVariableMentions vars b) (countVariableMentions vars a)⟩
  haveI : IsTrans Note (noteLe vars .mentions) :=
    ⟨fun a b c hab hbc => Nat.le_trans hbc hab⟩
  exact List.sorted_insertionSort (noteLe vars .mentions) notes

/-- C3: for a note, countVariableMentions is the sum over the session
variables of the number of word-boundary occurrences of the slash-name
token in the stored content field (for names made of word characters),
and the mentions sort returns a permutation of the displayed notes
ordered by non-increasing mention count. -/
theorem spec_C3 (vars : List Variable) (notes : List Note) (note : Note)
    (hw : ∀ v ∈ vars, v.name.data.all isWordChar = true) :
    countVariableMentions vars note =
      (vars.map (fun v => occCount v.name.data note.content.data)).sum ∧
    (sortedNotes vars .mentions notes).Perm notes ∧
    (sortedNotes vars .mentions notes).Pairwise
      (fun a b => countVariableMentions vars b ≤ countVariableMentions vars a) := by
  refine ⟨?_, List.perm_insertionSort _ _, sortedNotes_mentions_sorted vars notes⟩
  rw [countVariableMentions, foldl_add_eq_sum, Nat.zero_add]
  congr 1
  exact List.map_congr_left fun v hv =>
    jsCountSlashName_eq_occCount v.name.data note.content.data (hw v hv)

/-- Sample note used in concrete instantiations. -/
def demoNote : Note :=
  { id := "n1", sessionId := "s1", content := "met /user and /users today",
    originalContent := "met /user and /users today", tags := [], folder := "General",
    createdAt := 5 }

/-- Second sample note used in concrete instantiations. -/
def demoNote2 : Note :=
  { id := "n2", sessionId := "s1", content := "nothing here",
    originalContent := "nothing here", tags := [], folder := "General",
    createdAt := 7 }

theorem spec_C3_witness :
    countVariableMentions [demoUser] demoNote =
      ([demoUser].map (fun v => occCount v.name.data demoNote.content.data)).sum ∧
    (sortedNotes [demoUser] .mentions [demoNote2, demoNote]).Perm [demoNote2, demoNote] ∧
    (sortedNotes [demoUser] .mentions [demoNote2, demoNote]).Pairwise
      (fun a b =>
        countVariableMentions [demoUser] b ≤ countVariableMentions [demoUser] a) :=
  spec_C3 [demoUser] [demoNote2, demoNote] demoNote (by decide)

/-- Escaping of the three HTML metacharacters by downloadNotesAsHTML in
note-download.tsx: first every ampersand, then every less-than, then
every greater-than, each by a global single-character replace whose
replacement is not rescanned. -/
def escapeHtml (l : List Char) : List Char :=
  ((l.flatMap fun c => if c = '&' then "&amp;".data else [c]).flatMap
      fun c => if c = '<' then "&lt;".data else [c]).flatMap
    fun c => if c = '>' then "&gt;".data else [c]

/-- Opening of the span element wrapped around a resolved value by the
marker replacement of downloadNotesAsHTML. -/
def htmlSpanOpen : List Char := "<span class=\"variable\">".data

/-- Closing of the span element. -/
def htmlSpanClose : List Char := "</span>".data

/-- Replacement string of the variable-reference replace in
downloadNotesAsHTML.  In the source this string is written inside single
quotes, so the dollar-brace sequence is literal text and the variable
name is not interpolated; the analogous replacement in
downloadNotesAsMarkdown uses a template literal and does interpolate. -/
def htmlVariableReplacement : List Char :=
  "<span class=\"variable\">/$\x7bvariable.name\x7d</span>".data

/-- Per-note content pipeline of downloadNotesAsHTML: escape the HTML
metacharacters, wrap every marker-delimited resolved value in a span of
class variable, then for each variable replace every match of its
slash-name regex by the (non-interpolated) replacement string. -/
def htmlNoteContent (vars : List Variable) (content : List Char) : List Char :=
  vars.foldl
    (fun acc v => jsReplaceSlashName v.name.data htmlVariableReplacement acc)
    (jsReplaceMarkers (fun run => htmlSpanOpen ++ run ++ htmlSpanClose) (escapeHtml content))

/-- C2 (evaluation at the failing input): a marker-delimited resolved
value is indeed wrapped in a span of class variable, but exporting a
note whose content is the single reference to the user variable yields a
span whose visible text is the literal dollar-brace expression rather
than the slash followed by the variable name: the single-quoted
replacement string of downloadNotesAsHTML never interpolates the name. -/
theorem spec_C2_eval :
    htmlNoteContent [demoUser] (zws :: ("John Doe".data ++ [zws])) =
      htmlSpanOpen ++ "John Doe".data ++ htmlSpanClose ∧
    htmlNoteContent [demoUser] "/user".data =
      "<span class=\"variable\">/$\x7bvariable.name\x7d</span>".data := by
  exact ⟨by decide, by decide⟩

/-- Insert shape for a variable: the insert schema of shared/schema.ts
omits the generated id. -/
structure InsertVariable where
  sessionId : String
  name : String
  values : List String
deriving DecidableEq

/-- Insert shape for a note: the insert schema omits id and createdAt. -/
structure InsertNote where
  sessionId : String
  content : String
  originalContent : String
  tags : List String
  folder : String
deriving DecidableEq

/-- JavaScript Map.set on an insertion-ordered association list: replace
the value at an existing key in place, otherwise append the binding. -/
def mapSet {α : Type} (k : String) (v : α) : List (String × α) → List (String × α)
  | [] => [(k, v)]
  | (q, w) :: rest => if q = k then (k, v) :: rest else (q, w) :: mapSet k v rest

/-- JavaScript Map.get. -/
def mapGet {α : Type} (k : String) : List (String × α) → Option α
  | [] => none
  | (q, w) :: rest => if q = k then some w else mapGet k rest

/-- JavaScript Map.delete. -/
def mapDelete {α : Type} (k : String) (m : List (String × α)) : List (String × α) :=
  m.filter fun p => p.1 != k

/-- State of MemStorage in shared/schema.ts: the notes and variables
maps stored as insertion-ordered association lists keyed by record id
(the source always calls set with the id of the stored record).  The
field named variables in the source is called vars here because
variables is a reserved word in Lean. -/
structure MemState where
  notes : List (String × Note)
  vars : List (String × Variable)
deriving DecidableEq

/-- MemStorage.createNote: build the note from the insert data with a
fresh id and the current time (the folder falls back to General when the
given folder is empty) and store it under its id. -/
def memCreateNote (freshId : String) (now : Nat) (n : InsertNote) (st : MemState) :
    Note × MemState :=
  let note : Note :=
    { id := freshId, sessionId := n.sessionId, content := n.content,
      originalContent := n.originalContent, tags := n.tags,
      folder := if n.folder = "" then "General" else n.folder, createdAt := now }
  (note, { st with notes := mapSet freshId note st.notes })

/-- MemStorage.createVariable: build the variable from the insert data
with a fresh id and store it under that id.  There is no lookup of an
existing variable with the same session and name: a second call with an
equal name inserts a second row. -/
def memCreateVariable (freshId : String) (iv : InsertVariable) (st : MemState) :
    Variable × MemState :=
  let v : Variable :=
    { id := freshId, sessionId := iv.sessionId, name := iv.name, values := iv.values }
  (v, { st with vars := mapSet freshId v st.vars })

/-- Descending creation-time order used by the getNotes sorts. -/
def newestFirst (a b : Note) : Prop := b.createdAt ≤ a.createdAt

instance : DecidableRel newestFirst := fun a b => Nat.decLe b.createdAt a.createdAt

/-- MemStorage.getNotes: the values of the notes map filtered to the
session, sorted newest first. -/
def memGetNotes (sessionId : String) (st : MemState) : List Note :=
  ((st.notes.map Prod.snd).filter fun n => n.sessionId == sessionId).insertionSort newestFirst

/-- MemStorage.getNotesByFolder: the values of the notes map filtered to
the session and folder, sorted newest first. -/
def memGetNotesByFolder (sessionId folder : String) (st : MemState) : List Note :=
  ((st.notes.map Prod.snd).filter
    fun n => n.sessionId == sessionId && n.folder == folder).insertionSort newestFirst

/-- MemStorage.getVariables: the values of the variables map filtered to
the session. -/
def memGetVariables (sessionId : String) (st : MemState) : List Variable :=
  (st.vars.map Prod.snd).filter fun v => v.sessionId == sessionId

/-- MemStorage.deleteNote: look the note up by id, throw when it is
missing or belongs to another session, and otherwise delete the key. -/
def memDeleteNote (sessionId noteId : String) (st : MemState) : Except String MemState :=
  match mapGet noteId st.notes with
  | none => .error "Note not found"
  | some note =>
    if note.sessionId ≠ sessionId then .error "Note does not belong to this session"
    else .ok { st with notes := mapDelete noteId st.notes }

/-- State left by memDeleteNote; a thrown error leaves the store
unchanged, as the source mutates nothing before throwing. -/
def memDeleteNoteState (sessionId noteId : String) (st : MemState) : MemState :=
  match memDeleteNote sessionId noteId st with
  | .ok st2 => st2
  | .error _ => st

/-- MemStorage.deleteAllNotes: delete every note of the session. -/
def memDeleteAllNotes (sessionId : String) (st : MemState) : MemState :=
  { st with notes := st.notes.filter fun p => !(p.2.sessionId == sessionId) }

/-- Lookup of a session variable by name, as the find call of
MemStorage.addVariableValue over the values of the variables map. -/
def memFindVariable (sessionId name : String) (st : MemState) : Option Variable :=
  (st.vars.map Prod.snd).find? fun v => v.sessionId == sessionId && v.name == name

/-- MemStorage.addVariableValue: find the variable of the session by
name and throw when it is missing; return it unchanged when the value is
already present, and otherwise store a copy with the value appended. -/
def memAddVariableValue (sessionId name value : String) (st : MemState) :
    Except String (Variable × MemState) :=
  match memFindVariable sessionId name st with
  | none => .error "Variable not found"
  | some w =>
    if w.values.contains value then .ok (w, st)
    else
      let u : Variable := { w with values := w.values ++ [value] }
      .ok (u, { st with vars := mapSet w.id u st.vars })

/-- State left by memAddVariableValue (a thrown error leaves the store
unchanged). -/
def memAddVariableValueState (sessionId name value : String) (st : MemState) : MemState :=
  match memAddVariableValue sessionId name value st with
  | .ok (_, st2) => st2
  | .error _ => st

/-- State of DbStorage in server/db-storage.ts: the rows of the notes
and variables tables.  The variables rows are called vars here because
variables is a reserved word in Lean. -/
structure DbState where
  notes : List Note
  vars : List Variable
deriving DecidableEq

/-- DbStorage.getNotes: select the rows of the session ordered by
descending creation time. -/
def dbGetNotes (sessionId : String) (st : DbState) : List Note :=
  (st.notes.filter fun n => n.sessionId == sessionId).insertionSort newestFirst

/-- DbStorage.getNotesByFolder. -/
def dbGetNotesByFolder (sessionId folder : String) (st : DbState) : List Note :=
  (st.notes.filter
    fun n => n.sessionId == sessionId && n.folder == folder).insertionSort newestFirst

/-- DbStorage.getVariables. -/
def dbGetVariables (sessionId : String) (st : DbState) : List Variable :=
  st.vars.filter fun v => v.sessionId == sessionId

/-- DbStorage.createNote: insert a row built from the insert data with a
generated id and timestamp (the folder column defaults to General on an
empty value). -/
def dbCreateNote (freshId : String) (now : Nat) (n : InsertNote) (st : DbState) :
    Note × DbState :=
  let note : Note :=
    { id := freshId, sessionId := n.sessionId, content := n.content,
      originalContent := n.originalContent, tags := n.tags,
      folder := if n.folder = "" then "General" else n.folder, createdAt := now }
  (note, { st with notes := st.notes ++ [note] })

/-- DbStorage.deleteNote: delete the rows matching both the note id and
the session id, and throw when nothing was deleted. -/
def dbDeleteNote (sessionId noteId : String) (st : DbState) : Except String DbState :=
  let remaining := st.notes.filter fun n => !(n.id == noteId && n.sessionId == sessionId)
  if remaining.length = st.notes.length then
    .error "Note not found or does not belong to this session"
  else .ok { st with notes := remaining }

/-- State left by dbDeleteNote (a thrown error leaves the table
unchanged: the delete statement matched no row). -/
def dbDeleteNoteState (sessionId noteId : String) (st : DbState) : DbState :=
  match dbDeleteNote sessionId noteId st with
  | .ok st2 => st2
  | .error _ => st

/-- DbStorage.deleteAllNotes: delete every row of the session. -/
def dbDeleteAllNotes (sessionId : String) (st : DbState) : DbState :=
  { st with notes := st.notes.filter fun n => !(n.sessionId == sessionId) }

/-- Select of a variable row by session and name with limit one, as in
DbStorage.createVariable and DbStorage.addVariableValue. -/
def dbFindVariable (sessionId name : String) (st : DbState) : Option Variable :=
  st.vars.find? fun v => v.sessionId == sessionId && v.name == name

/-- DbStorage.createVariable: when a row with the same session and name
exists, update its values in place; otherwise insert a new row with a
generated id. -/
def dbCreateVariable (freshId : String) (iv : InsertVariable) (st : DbState) :
    Variable × DbState :=
  match dbFindVariable iv.sessionId iv.name st with
  | some w =>
    let u : Variable := { w with values := iv.values }
    (u, { st with vars := st.vars.map fun v => if v.id == w.id then u else v })
  | none =>
    let v : Variable :=
      { id := freshId, sessionId := iv.sessionId, name := iv.name, values := iv.values }
    (v, { st with vars := st.vars ++ [v] })

/-- Partial update data of DbStorage.updateVariable. -/
structure UpdateVariableData where
  sessionId : Option String
  name : Option String
  values : Option (List String)
deriving DecidableEq

/-- Application of the partial update to a row. -/
def applyUpdate (d : UpdateVariableData) (v : Variable) : Variable :=
  { v with sessionId := d.sessionId.getD v.sessionId,
           name := d.name.getD v.name,
           values := d.values.getD v.values }

/-- At most one variable row per session and name pair: the invariant
expressed by the unique constraint on the variables table declared in
shared/schema.ts. -/
def uniqueSessionName (l : List Variable) : Prop :=
  l.Pairwise fun a b => ¬(a.sessionId = b.sessionId ∧ a.name = b.name)

instance (l : List Variable) : Decidable (uniqueSessionName l) := by
  unfold uniqueSessionName
  infer_instance

/-- DbStorage.updateVariable combined with the unique constraint on the
variables table: the update is applied to every row carrying the given
id; the database rejects the statement (and the table is unchanged) when
the result would violate the session-and-name unique constraint, and the
method throws when no row carries the id. -/
def dbUpdateVariable (id : String) (d : UpdateVariableData) (st : DbState) :
    Except String (Variable × DbState) :=
  let newVars := st.vars.map fun v => if v.id == id then applyUpdate d v else v
  if uniqueSessionName newVars then
    match st.vars.find? (fun v => v.id == id) with
    | none => .error "Variable not found"
    | some v => .ok (applyUpdate d v, { st with vars := newVars })
  else .error "unique constraint violation"

/-- State left by dbUpdateVariable (an error leaves the table
unchanged). -/
def dbUpdateVariableState (id : String) (d : UpdateVariableData) (st : DbState) : DbState :=
  match dbUpdateVariable id d st with
  | .ok (_, st2) => st2
  | .error _ => st

/-- DbStorage.deleteVariable: delete the rows with the given id and
throw when nothing was deleted. -/
def dbDeleteVariable (id : String) (st : DbState) : Except String DbState :=
  let remaining := st.vars.filter fun v => !(v.id == id)
  if remaining.length = st.vars.length then .error "Variable not found"
  else .ok { st with vars := remaining }

/-- State left by dbDeleteVariable. -/
def dbDeleteVariableState (id : String) (st : DbState) : DbState :=
  match dbDeleteVariable id st with
  | .ok st2 => st2
  | .error _ => st

/-- DbStorage.addVariableValue: look the variable up by session and
name; create it with the single value when it is missing; return it
unchanged when the value is already present; otherwise update the row
with the value appended. -/
def dbAddVariableValue (freshId sessionId name value : String) (st : DbState) :
    Variable × DbState :=
  match dbFindVariable sessionId name st with
  | none => dbCreateVariable freshId ⟨sessionId, name, [value]⟩ st
  | some w =>
    if w.values.contains value then (w, st)
    else
      let u : Variable := { w with values := w.values ++ [value] }
      (u, { st with vars := st.vars.map fun v => if v.id == w.id then u else v })

/-- C4 counterexample: MemStorage.createVariable called twice with the
same session and name (and distinct fresh ids) leaves two variable rows
with that session and name in the store, so the claim that createVariable
updates the existing variable in place, keeping at most one row per
session and name, fails for MemStorage. -/
theorem spec_C4_counterexample :
    (((memCreateVariable "id2" ⟨"s1", "user", ["B"]⟩
        (memCreateVariable "id1" ⟨"s1", "user", ["A"]⟩
          { notes := [], vars := [] }).2).2.vars.map Prod.snd).countP
      fun v => v.sessionId == "s1" && v.name == "user") = 2 := by decide

theorem uniqueSessionName_map_update (l : List Variable) (w u : Variable)
    (hw : w ∈ l) (hnd : (l.map Variable.id).Nodup)
    (hs : u.sessionId = w.sessionId) (hn : u.name = w.name)
    (h : uniqueSessionName l) :
    uniqueSessionName (l.map fun v => if v.id == w.id then u else v) := by
  have hkey : ∀ x ∈ l,
      (if x.id == w.id then u else x).sessionId = x.sessionId ∧
      (if x.id == w.id then u else x).name = x.name := by
    intro x hx
    by_cases hxw : x.id = w.id
    · have hxeq : x = w := List.inj_on_of_nodup_map hnd hx hw hxw
      subst hxeq
      simp [hs, hn]
    · simp [beq_iff_eq, hxw]
  rw [uniqueSessionName, List.pairwise_map]
  refine h.imp_of_mem ?_
  intro a b ha hb hab
  obtain ⟨ha1, ha2⟩ := hkey a ha
  obtain ⟨hb1, hb2⟩ := hkey b hb
  rw [ha1, ha2, hb1, hb2]
  exact hab

theorem dbCreateVariable_unique (freshId : String) (iv : InsertVariable) (st : DbState)
    (h : uniqueSessionName st.vars) (hnd : (st.vars.map Variable.id).Nodup) :
    uniqueSessionName (dbCreateVariable freshId iv st).2.vars := by
  unfold dbCreateVariable
  cases hfind : dbFindVariable iv.sessionId iv.name st with
  | some w =>
    have hw : w ∈ st.vars := List.mem_of_find?_eq_some hfind
    exact uniqueSessionName_map_update st.vars w _ hw hnd rfl rfl h
  | none =>
    have hall := List.find?_eq_none.mp hfind
    rw [uniqueSessionName, List.pairwise_append]
    refine ⟨h, by simp, ?_⟩
    intro a ha b hb
    have hb2 : b = ⟨freshId, iv.sessionId, iv.name, iv.values⟩ := List.mem_singleton.mp hb
    subst hb2
    intro hcon
    exact hall a ha (by simp only [Bool.and_eq_true, beq_iff_eq]; exact ⟨hcon.1, hcon.2⟩)

theorem dbAddVariableValue_unique (freshId sessionId name value : String) (st : DbState)
    (h : uniqueSessionName st.vars) (hnd : (st.vars.map Variable.id).Nodup) :
    uniqueSessionName (dbAddVariableValue freshId sessionId name value st).2.vars := by
  unfold dbAddVariableValue
  cases hfind : dbFindVariable sessionId name st with
  | none => exact dbCreateVariable_unique freshId _ st h hnd
  | some w =>
    by_cases hc : w.values.contains value = true
    · simp only [hc, if_true]
      exact h
    · simp only [hc, if_false]
      have hw : w ∈ st.vars := List.mem_of_find?_eq_some hfind
      exact uniqueSessionName_map_update st.vars w _ hw hnd rfl rfl h

theorem dbUpdateVariable_unique (id : String) (d : UpdateVariableData) (st : DbState)
    (h : uniqueSessionName st.vars) :
    uniqueSessionName (dbUpdateVariableState id d st).vars := by
  unfold dbUpdateVariableState dbUpdateVariable
  by_cases hu : uniqueSessionName (st.vars.map fun v => if v.id == id then applyUpdate d v else v)
  · simp only [if_pos hu]
    cases st.vars.find? (fun v => v.id == id) with
    | none => exact h
    | some v => exact hu
  · simp only [if_neg hu]
    exact h

theorem dbDeleteVariable_unique (id : String) (st : DbState)
    (h : uniqueSessionName st.vars) :
    uniqueSessionName (dbDeleteVariableState id st).vars := by
  unfold dbDeleteVariableState dbDeleteVariable
  by_cases hl : (st.vars.filter fun v => !(v.id == id)).length = st.vars.length
  · simp only [if_pos hl]
    exact h
  · simp only [if_neg hl]
    exact List.Pairwise.filter _ h

/-- C4 (amended): for DbStorage, createVariable with an existing session
and name updates that row's values in place (same row id, no growth of
the table), and the at-most-one-row-per-session-and-name invariant --
the unique constraint declared on the variables table -- is preserved by
every variable operation of DbStorage, the note operations leaving the
variables table untouched.  The hypotheses are the invariant itself and
the primary-key uniqueness of row ids.  (MemStorage.createVariable, by
contrast, always inserts a new row: spec_C4_counterexample.) -/
theorem spec_C4 (st : DbState) (freshId id sessionId name value : String) (now : Nat)
    (iv : InsertVariable) (d : UpdateVariableData) (n : InsertNote)
    (h : uniqueSessionName st.vars) (hnd : (st.vars.map Variable.id).Nodup) :
    (∀ w, dbFindVariable iv.sessionId iv.name st = some w →
        (dbCreateVariable freshId iv st).1 = { w with values := iv.values } ∧
        (dbCreateVariable freshId iv st).2.vars.length = st.vars.length) ∧
    uniqueSessionName (dbCreateVariable freshId iv st).2.vars ∧
    uniqueSessionName (dbUpdateVariableState id d st).vars ∧
    uniqueSessionName (dbDeleteVariableState id st).vars ∧
    uniqueSessionName (dbAddVariableValue freshId sessionId name value st).2.vars ∧
    (dbCreateNote freshId now n st).2.vars = st.vars ∧
    (dbDeleteNoteState sessionId id st).vars = st.vars ∧
    (dbDeleteAllNotes sessionId st).vars = st.vars := by
  refine ⟨?_, dbCreateVariable_unique freshId iv st h hnd,
    dbUpdateVariable_unique id d st h, dbDeleteVariable_unique id st h,
    dbAddVariableValue_unique freshId sessionId name value st h hnd, rfl, ?_, rfl⟩
  · intro w hfind
    unfold dbCreateVariable
    rw [hfind]
    exact ⟨rfl, by simp⟩
  · unfold dbDeleteNoteState dbDeleteNote
    by_cases hl : (st.notes.filter
        fun q => !(q.id == id && q.sessionId == sessionId)).length = st.notes.length
    · simp only [if_pos hl]
    · simp only [if_neg hl]

/-- Concrete database state used by witnesses. -/
def demoDbState : DbState :=
  { notes := [demoNote, demoNote2],
    vars := [⟨"v1", "s1", "user", ["John Doe"]⟩, ⟨"v2", "s1", "company", ["Acme Inc"]⟩] }

theorem spec_C4_witness :
    uniqueSessionName (dbCreateVariable "v9" ⟨"s1", "user", ["X"]⟩ demoDbState).2.vars ∧
    uniqueSessionName (dbAddVariableValue "v9" "s1" "team" "Zeta" demoDbState).2.vars :=
  ⟨(spec_C4 demoDbState "v9" "v1" "s1" "team" "Zeta" 9 ⟨"s1", "user", ["X"]⟩
      ⟨none, none, none⟩ ⟨"s1", "c", "oc", [], "General"⟩ (by decide) (by decide)).2.1,
   (spec_C4 demoDbState "v9" "v1" "s1" "team" "Zeta" 9 ⟨"s1", "user", ["X"]⟩
      ⟨none, none, none⟩ ⟨"s1", "c", "oc", [], "General"⟩ (by decide) (by decide)).2.2.2.2.1⟩

theorem mapSet_subset {α : Type} (k : String) (v : α) (l : List (String × α)) :
    ∀ p ∈ mapSet k v l, p = (k, v) ∨ p ∈ l := by
  induction l with
  | nil =>
    intro p hp
    exact Or.inl (List.mem_singleton.mp hp)
  | cons q rest ih =>
    obtain ⟨k0, w0⟩ := q
    intro p hp
    by_cases hk : k0 = k
    · rw [mapSet, if_pos hk] at hp
      rcases List.mem_cons.mp hp with h | h
      · exact Or.inl h
      · exact Or.inr (List.mem_cons_of_mem _ h)
    · rw [mapSet, if_neg hk] at hp
      rcases List.mem_cons.mp hp with h | h
      · exact Or.inr (h ▸ List.mem_cons_self _ _)
      · rcases ih p h with h2 | h2
        · exact Or.inl h2
        · exact Or.inr (List.mem_cons_of_mem _ h2)

theorem mapSet_keeps {α : Type} (k : String) (v : α) (l : List (String × α)) :
    ∀ p ∈ l, p.1 ≠ k → p ∈ mapSet k v l := by
  induction l with
  | nil => intro p hp; cases hp
  | cons q rest ih =>
    obtain ⟨k0, w0⟩ := q
    intro p hp hpk
    by_cases hk : k0 = k
    · rw [mapSet, if_pos hk]
      rcases List.mem_cons.mp hp with h | h
      · exact absurd (by rw [h]; exact hk) hpk
      · exact List.mem_cons_of_mem _ h
    · rw [mapSet, if_neg hk]
      rcases List.mem_cons.mp hp with h | h
      · exact h ▸ List.mem_cons_self _ _
      · exact List.mem_cons_of_mem _ (ih p h hpk)

theorem mapGet_eq_of_mem {α : Type} {l : List (String × α)} {p : String × α}
    (hnd : (l.map Prod.fst).Nodup) (hp : p ∈ l) :
    mapGet p.1 l = some p.2 := by
  induction l with
  | nil => cases hp
  | cons q rest ih =>
    obtain ⟨k0, w0⟩ := q
    rw [List.map_cons, List.nodup_cons] at hnd
    by_cases hk : k0 = p.1
    · rw [mapGet, if_pos hk]
      rcases List.mem_cons.mp hp with h | h
      · rw [h]
      · exfalso
        apply hnd.1
        rw [hk]
        exact List.mem_map.mpr ⟨p, h, rfl⟩
    · rw [mapGet, if_neg hk]
      rcases List.mem_cons.mp hp with h | h
      · exact absurd (by rw [h]) hk
      · exact ih hnd.2 h

theorem memFind_entry {st : MemState} {s n0 : String} {w : Variable}
    (hkey : ∀ p ∈ st.vars, p.1 = p.2.id)
    (hfind : memFindVariable s n0 st = some w) :
    (w.id, w) ∈ st.vars := by
  have hw : w ∈ st.vars.map Prod.snd := List.mem_of_find?_eq_some hfind
  obtain ⟨q, hq, hq2⟩ := List.mem_map.mp hw
  have hq1 := hkey q hq
  obtain ⟨k0, w0⟩ := q
  simp only at hq2
  subst hq2
  simp only at hq1
  rw [← hq1]
  exact hq

theorem memFind_sessionId {st : MemState} {s n0 : String} {w : Variable}
    (hfind : memFindVariable s n0 st = some w) : w.sessionId = s := by
  have := List.find?_some hfind
  simp only [Bool.and_eq_true, beq_iff_eq] at this
  exact this.1

theorem dbFind_sessionId {st : DbState} {s n0 : String} {w : Variable}
    (hfind : dbFindVariable s n0 st = some w) : w.sessionId = s := by
  have := List.find?_some hfind
  simp only [Bool.and_eq_true, beq_iff_eq] at this
  exact this.1

theorem memDeleteNote_other_sessions (s noteId : String) (st : MemState)
    (hnd : (st.notes.map Prod.fst).Nodup) :
    ∀ p : String × Note, p.2.sessionId ≠ s →
      (p ∈ st.notes ↔ p ∈ (memDeleteNoteState s noteId st).notes) := by
  intro p hp
  unfold memDeleteNoteState memDeleteNote
  cases hget : mapGet noteId st.notes with
  | none => exact Iff.rfl
  | some note =>
    by_cases hsess : note.sessionId ≠ s
    · simp only [if_pos hsess]
    · simp only [if_neg hsess]
      push_neg at hsess
      constructor
      · intro hmem
        refine List.mem_filter.mpr ⟨hmem, ?_⟩
        simp only [bne_iff_ne, ne_eq, decide_eq_true_eq]
        intro hkey
        have := mapGet_eq_of_mem hnd hmem
        rw [hkey, hget] at this
        have hpn : note = p.2 := by injection this
        exact hp (hpn ▸ hsess)
      · intro hmem
        exact (List.mem_filter.mp hmem).1

theorem memAddVariableValue_other_sessions (s name value : String) (st : MemState)
    (hkey : ∀ p ∈ st.vars, p.1 = p.2.id)
    (hnd : (st.vars.map Prod.fst).Nodup) :
    ∀ p : String × Variable, p.2.sessionId ≠ s →
      (p ∈ st.vars ↔ p ∈ (memAddVariableValueState s name value st).vars) := by
  intro p hp
  unfold memAddVariableValueState memAddVariableValue
  cases hfind : memFindVariable s name st with
  | none => exact Iff.rfl
  | some w =>
    have hws : w.sessionId = s := memFind_sessionId hfind
    have hwent : (w.id, w) ∈ st.vars := memFind_entry hkey hfind
    by_cases hc : w.values.contains value = true
    · simp only [hc, if_true]
    · simp only [hc, if_false]
      constructor
      · intro hmem
        refine mapSet_keeps _ _ _ p hmem ?_
        intro hpk
        have hpe : p = (w.id, w) :=
          List.inj_on_of_nodup_map hnd hmem hwent hpk
        exact hp (by rw [hpe]; exact hws)
      · intro hmem
        rcases mapSet_subset _ _ _ p hmem with h | h
        · exact absurd (by rw [h]; exact hws) hp
        · exact h

theorem dbAddVariableValue_other_sessions (freshId s name value : String) (st : DbState)
    (hnd : (st.vars.map Variable.id).Nodup) :
    ∀ v : Variable, v.sessionId ≠ s →
      (v ∈ st.vars ↔ v ∈ (dbAddVariableValue freshId s name value st).2.vars) := by
  intro v hv
  unfold dbAddVariableValue
  cases hfind : dbFindVariable s name st with
  | none =>
    unfold dbCreateVariable
    simp only [hfind]
    constructor
    · intro h
      exact List.mem_append_left _ h
    · intro h
      rcases List.mem_append.mp h with h | h
      · exact h
      · exact absurd (by rw [List.mem_singleton.mp h]) hv
  | some w =>
    have hws : w.sessionId = s := dbFind_sessionId hfind
    have hwmem : w ∈ st.vars := List.mem_of_find?_eq_some hfind
    by_cases hc : w.values.contains value = true
    · simp only [hc, if_true]
    · simp only [hc, if_false]
      constructor
      · intro h
        have hne : v.id ≠ w.id := by
          intro he
          have hvw : v = w := List.inj_on_of_nodup_map hnd h hwmem he
          exact hv (hvw ▸ hws)
        have hfix : (if v.id == w.id then
            ({ w with values := w.values ++ [value] } : Variable) else v) = v := by
          simp [beq_iff_eq, hne]
        exact hfix ▸ List.mem_map_of_mem _ h
      · intro h
        obtain ⟨q, hq, hq2⟩ := List.mem_map.mp h
        by_cases hqw : q.id = w.id
        · rw [if_pos (by simp [beq_iff_eq, hqw])] at hq2
          exact absurd (by rw [← hq2]; exact hws) hv
        · rw [if_neg (by simp [beq_iff_eq, hqw])] at hq2
          exact hq2 ▸ hq

/-- C5: storage is session-scoped.  The three getters of each storage
return only records of the given session, and deleteNote,
deleteAllNotes and addVariableValue never add, remove or modify a note
or variable belonging to a different session (for the map-backed
MemStorage under the JavaScript Map invariants: unique keys, and each
variable stored under its own id; for DbStorage under primary-key
uniqueness of the variable row ids). -/
theorem spec_C5 (stM : MemState) (stD : DbState) (s f noteId name value freshId : String)
    (hndN : (stM.notes.map Prod.fst).Nodup)
    (hkeyV : ∀ p ∈ stM.vars, p.1 = p.2.id)
    (hndV : (stM.vars.map Prod.fst).Nodup)
    (hndD : (stD.vars.map Variable.id).Nodup) :
    (∀ n ∈ memGetNotes s stM, n.sessionId = s) ∧
    (∀ n ∈ memGetNotesByFolder s f stM, n.sessionId = s) ∧
    (∀ v ∈ memGetVariables s stM, v.sessionId = s) ∧
    (∀ n ∈ dbGetNotes s stD, n.sessionId = s) ∧
    (∀ n ∈ dbGetNotesByFolder s f stD, n.sessionId = s) ∧
    (∀ v ∈ dbGetVariables s stD, v.sessionId = s) ∧
    (∀ p : String × Note, p.2.sessionId ≠ s →
      (p ∈ stM.notes ↔ p ∈ (memDeleteNoteState s noteId stM).notes)) ∧
    (memDeleteNoteState s noteId stM).vars = stM.vars ∧
    (∀ p : String × Note, p.2.sessionId ≠ s →
      (p ∈ stM.notes ↔ p ∈ (memDeleteAllNotes s stM).notes)) ∧
    (memDeleteAllNotes s stM).vars = stM.vars ∧
    (∀ p : String × Variable, p.2.sessionId ≠ s →
      (p ∈ stM.vars ↔ p ∈ (memAddVariableValueState s name value stM).vars)) ∧
    (memAddVariableValueState s name value stM).notes = stM.notes ∧
    (∀ n : Note, n.sessionId ≠ s →
      (n ∈ stD.notes ↔ n ∈ (dbDeleteNoteState s noteId stD).notes)) ∧
    (dbDeleteNoteState s noteId stD).vars = stD.vars ∧
    (∀ n : Note, n.sessionId ≠ s →
      (n ∈ stD.notes ↔ n ∈ (dbDeleteAllNotes s stD).notes)) ∧
    (dbDeleteAllNotes s stD).vars = stD.vars ∧
    (∀ v : Variable, v.sessionId ≠ s →
      (v ∈ stD.vars ↔ v ∈ (dbAddVariableValue freshId s name value stD).2.vars)) ∧
    (dbAddVariableValue freshId s name value stD).2.notes = stD.notes := by
  refine ⟨?_, ?_, ?_, ?_, ?_, ?_,
    memDeleteNote_other_sessions s noteId stM hndN, ?_,
    ?_, rfl,
    memAddVariableValue_other_sessions s name value stM hkeyV hndV, ?_,
    ?_, ?_, ?_, rfl,
    dbAddVariableValue_other_sessions freshId s name value stD hndD, ?_⟩
  · intro n hn
    rw [memGetNotes, (List.perm_insertionSort _ _).mem_iff] at hn
    exact beq_iff_eq.mp (List.mem_filter.mp hn).2
  · intro n hn
    rw [memGetNotesByFolder, (List.perm_insertionSort _ _).mem_iff] at hn
    have h2 := (List.mem_filter.mp hn).2
    simp only [Bool.and_eq_true, beq_iff_eq] at h2
    exact h2.1
  · intro v hv
    exact beq_iff_eq.mp (List.mem_filter.mp hv).2
  · intro n hn
    rw [dbGetNotes, (List.perm_insertionSort _ _).mem_iff] at hn
    exact beq_iff_eq.mp (List.mem_filter.mp hn).2
  · intro n hn
    rw [dbGetNotesByFolder, (List.perm_insertionSort _ _).mem_iff] at hn
    have h2 := (List.mem_filter.mp hn).2
    simp only [Bool.and_eq_true, beq_iff_eq] at h2
    exact h2.1
  · intro v hv
    exact beq_iff_eq.mp (List.mem_filter.mp hv).2
  · unfold memDeleteNoteState memDeleteNote
    cases mapGet noteId stM.notes with
    | none => rfl
    | some note =>
      by_cases hsess : note.sessionId ≠ s
      · simp [hsess]
      · simp [hsess]
  · intro p hp
    constructor
    · intro hmem
      refine List.mem_filter.mpr ⟨hmem, ?_⟩
      simp [hp]
    · intro hmem
      exact (List.mem_filter.mp hmem).1
  · unfold memAddVariableValueState memAddVariableValue
    cases memFindVariable s name stM with
    | none => rfl
    | some w =>
      by_cases hc : value ∈ w.values
      · simp [hc]
      · simp [hc]
  · intro n hn
    unfold dbDeleteNoteState dbDeleteNote
    by_cases hl : (stD.notes.filter
        fun q => !(q.id == noteId && q.sessionId == s)).length = stD.notes.length
    · rw [if_pos hl]
    · rw [if_neg hl]
      constructor
      · intro hmem
        refine List.mem_filter.mpr ⟨hmem, ?_⟩
        simp [hn]
      · intro hmem
        exact (List.mem_filter.mp hmem).1
  · unfold dbDeleteNoteState dbDeleteNote
    by_cases hl : (stD.notes.filter
        fun q => !(q.id == noteId && q.sessionId == s)).length = stD.notes.length
    · rw [if_pos hl]
    · rw [if_neg hl]
  · intro n hn
    constructor
    · intro hmem
      refine List.mem_filter.mpr ⟨hmem, ?_⟩
      simp [hn]
    · intro hmem
      exact (List.mem_filter.mp hmem).1
  · unfold dbAddVariableValue
    cases hfind : dbFindVariable s name stD with
    | none => simp [dbCreateVariable, hfind]
    | some w =>
      by_cases hc : value ∈ w.values
      · simp [hc]
      · simp [hc]

/-- Concrete memory-storage state used by witnesses. -/
def demoMemState : MemState :=
  { notes := [("n1", demoNote), ("n2", demoNote2)],
    vars := [("v1", { id := "v1", sessionId := "s1", name := "user",
                      values := ["John Doe"] })] }

theorem spec_C5_witness :
    (∀ n ∈ memGetNotes "s1" demoMemState, n.sessionId = "s1") ∧
    (∀ v ∈ dbGetVariables "s1" demoDbState, v.sessionId = "s1") :=
  ⟨(spec_C5 demoMemState demoDbState "s1" "General" "n1" "user" "X" "v9"
      (by decide) (by decide) (by decide) (by decide)).1,
   (spec_C5 demoMemState demoDbState "s1" "General" "n1" "user" "X" "v9"
      (by decide) (by decide) (by decide) (by decide)).2.2.2.2.2.1⟩

theorem find?_append_none {α : Type} (p : α → Bool) (l1 l2 : List α)
    (h : l1.find? p = none) : (l1 ++ l2).find? p = l2.find? p := by
  induction l1 with
  | nil => rfl
  | cons x rest ih =>
    by_cases hpx : p x = true
    · rw [List.find?_cons_of_pos _ hpx] at h
      cases h
    · rw [List.find?_cons_of_neg _ hpx] at h
      rw [List.cons_append, List.find?_cons_of_neg _ hpx]
      exact ih h

theorem find?_map_update (l : List Variable) (p : Variable → Bool) (w u : Variable)
    (hfind : l.find? p = some w) (hu : p u = true) :
    (l.map fun v => if v.id == w.id then u else v).find? p = some u := by
  induction l with
  | nil => cases hfind
  | cons x rest ih =>
    rw [List.map_cons]
    by_cases hpx : p x = true
    · rw [List.find?_cons_of_pos _ hpx] at hfind
      have hxw : x = w := by injection hfind
      subst hxw
      rw [if_pos (beq_self_eq_true x.id)]
      exact List.find?_cons_of_pos _ hu
    · rw [List.find?_cons_of_neg _ hpx] at hfind
      by_cases hxw : x.id = w.id
      · rw [if_pos (by simp [beq_iff_eq, hxw])]
        exact List.find?_cons_of_pos _ hu
      · rw [if_neg (by simp [beq_iff_eq, hxw])]
        rw [List.find?_cons_of_neg _ hpx]
        exact ih hfind

theorem memFind_set_of_find (l : List (String × Variable)) (s n0 : String) (w u : Variable)
    (hkey : ∀ p ∈ l, p.1 = p.2.id) (hnd : (l.map Prod.fst).Nodup)
    (hfind : (l.map Prod.snd).find? (fun v => v.sessionId == s && v.name == n0) = some w)
    (hu : (u.sessionId == s && u.name == n0) = true) :
    ((mapSet w.id u l).map Prod.snd).find? (fun v => v.sessionId == s && v.name == n0) =
      some u := by
  induction l with
  | nil => cases hfind
  | cons q rest ih =>
    obtain ⟨k0, x⟩ := q
    rw [List.map_cons] at hfind
    rw [List.map_cons, List.nodup_cons] at hnd
    replace hfind : List.find? (fun v => v.sessionId == s && v.name == n0)
        (x :: rest.map Prod.snd) = some w := hfind
    replace hnd : k0 ∉ rest.map Prod.fst ∧ (rest.map Prod.fst).Nodup := hnd
    by_cases hpx : (x.sessionId == s && x.name == n0) = true
    · rw [@List.find?_cons_of_pos _ (fun v => v.sessionId == s && v.name == n0) x
        (rest.map Prod.snd) hpx] at hfind
      have hxw : x = w := by injection hfind
      subst hxw
      have hk0 : k0 = x.id := hkey (k0, x) (List.mem_cons_self _ _)
      rw [mapSet, if_pos hk0, List.map_cons]
      exact List.find?_cons_of_pos _ hu
    · rw [@List.find?_cons_of_neg _ (fun v => v.sessionId == s && v.name == n0) x
        (rest.map Prod.snd) hpx] at hfind
      have hwrest : w ∈ rest.map Prod.snd := List.mem_of_find?_eq_some hfind
      have hk0 : ¬(k0 = w.id) := by
        intro he
        obtain ⟨q2, hq2, hq22⟩ := List.mem_map.mp hwrest
        have hq21 := hkey q2 (List.mem_cons_of_mem _ hq2)
        apply hnd.1
        rw [he]
        exact List.mem_map.mpr ⟨q2, hq2, by rw [hq21, hq22]⟩
      rw [mapSet, if_neg hk0, List.map_cons,
        @List.find?_cons_of_neg _ (fun v => v.sessionId == s && v.name == n0) x
          ((mapSet w.id u rest).map Prod.snd) hpx]
      exact ih (fun p hp => hkey p (List.mem_cons_of_mem _ hp)) hnd.2 hfind

theorem memAddState_idem (s n0 value : String) (st : MemState)
    (hkey : ∀ p ∈ st.vars, p.1 = p.2.id) (hnd : (st.vars.map Prod.fst).Nodup) :
    memAddVariableValueState s n0 value (memAddVariableValueState s n0 value st) =
      memAddVariableValueState s n0 value st := by
  cases hfind : memFindVariable s n0 st with
  | none =>
    have h1 : memAddVariableValueState s n0 value st = st := by
      unfold memAddVariableValueState memAddVariableValue
      rw [hfind]
    rw [h1]
    exact h1
  | some w =>
    by_cases hc : value ∈ w.values
    · have h1 : memAddVariableValueState s n0 value st = st := by
        unfold memAddVariableValueState memAddVariableValue
        rw [hfind]
        simp [hc]
      rw [h1]
      exact h1
    · have hpredw := List.find?_some hfind
      have h1 : memAddVariableValueState s n0 value st =
          { st with
            vars := mapSet w.id { w with values := w.values ++ [value] } st.vars } := by
        unfold memAddVariableValueState memAddVariableValue
        rw [hfind]
        simp [hc]
      rw [h1]
      have hfind2 : memFindVariable s n0
          { st with
            vars := mapSet w.id { w with values := w.values ++ [value] } st.vars } =
          some { w with values := w.values ++ [value] } := by
        unfold memFindVariable at hfind ⊢
        exact memFind_set_of_find st.vars s n0 w _ hkey hnd hfind (by simpa using hpredw)
      unfold memAddVariableValueState memAddVariableValue
      rw [hfind2]
      simp

theorem dbAddState_idem (freshId freshId2 s n0 value : String) (st : DbState) :
    (dbAddVariableValue freshId2 s n0 value
        (dbAddVariableValue freshId s n0 value st).2).2 =
      (dbAddVariableValue freshId s n0 value st).2 := by
  cases hfind : dbFindVariable s n0 st with
  | none =>
    have h1 : (dbAddVariableValue freshId s n0 value st).2 =
        { st with vars := st.vars ++ [⟨freshId, s, n0, [value]⟩] } := by
      unfold dbAddVariableValue dbCreateVariable
      rw [hfind]
    rw [h1]
    have hfind2 : dbFindVariable s n0
        { st with vars := st.vars ++ [⟨freshId, s, n0, [value]⟩] } =
        some ⟨freshId, s, n0, [value]⟩ := by
      unfold dbFindVariable at hfind ⊢
      rw [find?_append_none _ _ _ hfind]
      simp
    unfold dbAddVariableValue
    rw [hfind2]
    simp
  | some w =>
    have hpredw := List.find?_some hfind
    by_cases hc : value ∈ w.values
    · have h1 : ∀ fid : String, (dbAddVariableValue fid s n0 value st).2 = st := by
        intro fid
        unfold dbAddVariableValue
        rw [hfind]
        simp [hc]
      rw [h1, h1]
    · have h1 : (dbAddVariableValue freshId s n0 value st).2 =
          { st with vars := (st.vars.map fun v =>
              if v.id == w.id then { w with values := w.values ++ [value] } else v) } := by
        unfold dbAddVariableValue
        rw [hfind]
        simp [hc]
      rw [h1]
      have hfind2 : dbFindVariable s n0
          { st with vars := (st.vars.map fun v =>
              if v.id == w.id then { w with values := w.values ++ [value] } else v) } =
          some { w with values := w.values ++ [value] } := by
        unfold dbFindVariable at hfind ⊢
        exact find?_map_update st.vars _ w _ hfind (by simpa using hpredw)
      unfold dbAddVariableValue
      rw [hfind2]
      simp

theorem nodup_values_append {w : Variable} (hw : w.values.Nodup) {value : String}
    (hc : value ∉ w.values) : (w.values ++ [value]).Nodup := by
  rw [List.nodup_append]
  refine ⟨hw, List.nodup_singleton value, ?_⟩
  intro a ha hb
  rw [List.mem_singleton.mp hb] at ha
  exact hc ha

theorem memAddState_nodup (s n0 value : String) (st : MemState)
    (h : ∀ p ∈ st.vars, p.2.values.Nodup) :
    ∀ p ∈ (memAddVariableValueState s n0 value st).vars, p.2.values.Nodup := by
  intro p hp
  unfold memAddVariableValueState memAddVariableValue at hp
  cases hfind : memFindVariable s n0 st with
  | none =>
    rw [hfind] at hp
    exact h p hp
  | some w =>
    rw [hfind] at hp
    by_cases hc : value ∈ w.values
    · simp [hc] at hp
      exact h p hp
    · simp [hc] at hp
      rcases mapSet_subset _ _ _ p hp with he | he
      · have hw : w ∈ st.vars.map Prod.snd := List.mem_of_find?_eq_some hfind
        obtain ⟨q, hq, hq2⟩ := List.mem_map.mp hw
        have hwnd : w.values.Nodup := by
          rw [← hq2]
          exact h q hq
        rw [he]
        exact nodup_values_append hwnd hc
      · exact h p he

theorem dbAdd_nodup (freshId s n0 value : String) (st : DbState)
    (h : ∀ v ∈ st.vars, v.values.Nodup) :
    ∀ v ∈ (dbAddVariableValue freshId s n0 value st).2.vars, v.values.Nodup := by
  intro v hv
  unfold dbAddVariableValue at hv
  cases hfind : dbFindVariable s n0 st with
  | none =>
    rw [hfind] at hv
    unfold dbCreateVariable at hv
    rw [hfind] at hv
    rcases List.mem_append.mp hv with h2 | h2
    · exact h v h2
    · rw [List.mem_singleton.mp h2]
      exact List.nodup_singleton value
  | some w =>
    rw [hfind] at hv
    have hw : w ∈ st.vars := List.mem_of_find?_eq_some hfind
    by_cases hc : value ∈ w.values
    · simp [hc] at hv
      exact h v hv
    · simp [hc] at hv
      obtain ⟨q, hq, hq2⟩ := hv
      by_cases hqw : q.id = w.id
      · rw [if_pos hqw] at hq2
        rw [← hq2]
        exact nodup_values_append (h w hw) hc
      · rw [if_neg hqw] at hq2
        rw [← hq2]
        exact h q hq

/-- C9: addVariableValue is idempotent and duplicate-free for both
storages.  When the value is already present the variable and the store
are returned unchanged; otherwise the value is appended exactly once at
the end; applying the operation twice leaves the same state as applying
it once (for MemStorage under the JavaScript Map invariants, for
DbStorage unconditionally, even across different generated ids); and a
duplicate-free values list never gains a duplicate.  DbStorage creates
the variable when it is missing, MemStorage throws, and in both cases a
repeat call changes nothing further. -/
theorem spec_C9 (stM : MemState) (stD : DbState)
    (s n0 value freshId freshId2 : String) (w : Variable)
    (hkey : ∀ p ∈ stM.vars, p.1 = p.2.id) (hnd : (stM.vars.map Prod.fst).Nodup) :
    (memFindVariable s n0 stM = some w → value ∈ w.values →
      memAddVariableValue s n0 value stM = .ok (w, stM)) ∧
    (memFindVariable s n0 stM = some w → value ∉ w.values →
      memAddVariableValue s n0 value stM =
        .ok ({ w with values := w.values ++ [value] },
          { stM with
            vars := mapSet w.id { w with values := w.values ++ [value] } stM.vars }) ∧
      (w.values ++ [value]).count value = w.values.count value + 1) ∧
    memAddVariableValueState s n0 value (memAddVariableValueState s n0 value stM) =
      memAddVariableValueState s n0 value stM ∧
    ((∀ p ∈ stM.vars, p.2.values.Nodup) →
      ∀ p ∈ (memAddVariableValueState s n0 value stM).vars, p.2.values.Nodup) ∧
    (dbFindVariable s n0 stD = some w → value ∈ w.values →
      dbAddVariableValue freshId s n0 value stD = (w, stD)) ∧
    (dbFindVariable s n0 stD = some w → value ∉ w.values →
      (dbAddVariableValue freshId s n0 value stD).1.values = w.values ++ [value]) ∧
    (dbAddVariableValue freshId2 s n0 value
        (dbAddVariableValue freshId s n0 value stD).2).2 =
      (dbAddVariableValue freshId s n0 value stD).2 ∧
    ((∀ v ∈ stD.vars, v.values.Nodup) →
      ∀ v ∈ (dbAddVariableValue freshId s n0 value stD).2.vars, v.values.Nodup) := by
  refine ⟨?_, ?_, memAddState_idem s n0 value stM hkey hnd,
    memAddState_nodup s n0 value stM, ?_, ?_,
    dbAddState_idem freshId freshId2 s n0 value stD,
    dbAdd_nodup freshId s n0 value stD⟩
  · intro hfind hc
    unfold memAddVariableValue
    rw [hfind]
    simp [hc]
  · intro hfind hc
    refine ⟨?_, ?_⟩
    · unfold memAddVariableValue
      rw [hfind]
      simp [hc]
    · rw [List.count_append, List.count_singleton]
      simp
  · intro hfind hc
    unfold dbAddVariableValue
    rw [hfind]
    simp [hc]
  · intro hfind hc
    unfold dbAddVariableValue
    rw [hfind]
    simp [hc]

theorem spec_C9_witness :
    memAddVariableValue "s1" "user" "John Doe" demoMemState =
      .ok (⟨"v1", "s1", "user", ["John Doe"]⟩, demoMemState) ∧
    memAddVariableValueState "s1" "user" "X"
        (memAddVariableValueState "s1" "user" "X" demoMemState) =
      memAddVariableValueState "s1" "user" "X" demoMemState :=
  ⟨(spec_C9 demoMemState demoDbState "s1" "user" "John Doe" "f1" "f2"
      ⟨"v1", "s1", "user", ["John Doe"]⟩ (by decide) (by decide)).1 (by decide) (by decide),
   (spec_C9 demoMemState demoDbState "s1" "user" "X" "f1" "f2"
      ⟨"v1", "s1", "user", ["John Doe"]⟩ (by decide) (by decide)).2.2.1⟩

/-- C10: deleteNote throws exactly when the note id is absent or the
note belongs to a different session; the store is unchanged in every
error case; and on success exactly the note with that id (for DbStorage:
with that id and session) is removed and everything else is unchanged. -/
theorem spec_C10 (stM : MemState) (stD : DbState) (s noteId : String) :
    (mapGet noteId stM.notes = none →
      memDeleteNote s noteId stM = .error "Note not found") ∧
    (∀ note, mapGet noteId stM.notes = some note → note.sessionId ≠ s →
      memDeleteNote s noteId stM = .error "Note does not belong to this session") ∧
    (∀ e, memDeleteNote s noteId stM = .error e → memDeleteNoteState s noteId stM = stM) ∧
    (∀ note, mapGet noteId stM.notes = some note → note.sessionId = s →
      memDeleteNote s noteId stM = .ok (memDeleteNoteState s noteId stM) ∧
      (∀ p : String × Note,
        p ∈ (memDeleteNoteState s noteId stM).notes ↔ p ∈ stM.notes ∧ p.1 ≠ noteId) ∧
      (memDeleteNoteState s noteId stM).vars = stM.vars) ∧
    ((¬ ∃ n ∈ stD.notes, n.id = noteId ∧ n.sessionId = s) ↔
      dbDeleteNote s noteId stD =
        .error "Note not found or does not belong to this session") ∧
    (∀ e, dbDeleteNote s noteId stD = .error e → dbDeleteNoteState s noteId stD = stD) ∧
    (∀ st2, dbDeleteNote s noteId stD = .ok st2 →
      (∀ n : Note, n ∈ st2.notes ↔ n ∈ stD.notes ∧ ¬(n.id = noteId ∧ n.sessionId = s)) ∧
      st2.vars = stD.vars) := by
  refine ⟨?_, ?_, ?_, ?_, ?_, ?_, ?_⟩
  · intro h
    unfold memDeleteNote
    rw [h]
  · intro note h hne
    unfold memDeleteNote
    simp only [h]
    rw [if_pos hne]
  · intro e he
    unfold memDeleteNoteState
    rw [he]
  · intro note h hs
    have hok : memDeleteNote s noteId stM =
        .ok { stM with notes := mapDelete noteId stM.notes } := by
      unfold memDeleteNote
      simp only [h]
      rw [if_neg (by simp [hs])]
    have hst : memDeleteNoteState s noteId stM =
        { stM with notes := mapDelete noteId stM.notes } := by
      unfold memDeleteNoteState
      rw [hok]
    refine ⟨by rw [hok, hst], ?_, by rw [hst]⟩
    intro p
    rw [hst]
    unfold mapDelete
    constructor
    · intro hp
      have := List.mem_filter.mp hp
      exact ⟨this.1, by simpa using this.2⟩
    · intro hp
      exact List.mem_filter.mpr ⟨hp.1, by simpa using hp.2⟩
  · constructor
    · intro hno
      unfold dbDeleteNote
      rw [if_pos ?_]
      have : ∀ n ∈ stD.notes, (!(n.id == noteId && n.sessionId == s)) = true := by
        intro n hn
        simp only [Bool.not_eq_eq_eq_not, Bool.not_true, Bool.and_eq_false_iff,
          beq_eq_false_iff_ne, ne_eq]
        by_cases h1 : n.id = noteId
        · right
          intro h2
          exact hno ⟨n, hn, h1, h2⟩
        · left
          exact h1
      rw [List.filter_eq_self.mpr this]
    · intro he hex
      obtain ⟨n, hn, h1, h2⟩ := hex
      unfold dbDeleteNote at he
      by_cases hl : (stD.notes.filter
          fun q => !(q.id == noteId && q.sessionId == s)).length = stD.notes.length
      · have hlt : (stD.notes.filter
            fun q => !(q.id == noteId && q.sessionId == s)).length < stD.notes.length := by
          rw [List.length_filter_lt_length_iff_exists]
          exact ⟨n, hn, by simp [h1, h2]⟩
        omega
      · rw [if_neg hl] at he
        cases he
  · intro e he
    unfold dbDeleteNoteState
    rw [he]
  · intro st2 he
    unfold dbDeleteNote at he
    by_cases hl : (stD.notes.filter
        fun q => !(q.id == noteId && q.sessionId == s)).length = stD.notes.length
    · rw [if_pos hl] at he
      cases he
    · rw [if_neg hl] at he
      have hst : st2 = { stD with
          notes := stD.notes.filter fun q => !(q.id == noteId && q.sessionId == s) } := by
        injection he with h2
        exact h2.symm
      subst hst
      refine ⟨?_, rfl⟩
      intro n
      constructor
      · intro hp
        have := List.mem_filter.mp hp
        refine ⟨this.1, ?_⟩
        have h2 := this.2
        simp only [Bool.not_eq_eq_eq_not, Bool.not_true, Bool.and_eq_false_iff,
          beq_eq_false_iff_ne, ne_eq] at h2
        tauto
      · intro hp
        refine List.mem_filter.mpr ⟨hp.1, ?_⟩
        simp only [Bool.not_eq_eq_eq_not, Bool.not_true, Bool.and_eq_false_iff,
          beq_eq_false_iff_ne, ne_eq]
        tauto

theorem spec_C10_witness :
    memDeleteNote "s1" "n1" demoMemState =
      .ok (memDeleteNoteState "s1" "n1" demoMemState) ∧
    dbDeleteNote "s1" "zzz" demoDbState =
      .error "Note not found or does not belong to this session" :=
  ⟨((spec_C10 demoMemState demoDbState "s1" "n1").2.2.2.1 demoNote
      (by decide) (by decide)).1,
   (spec_C10 demoMemState demoDbState "s1" "zzz").2.2.2.2.1.mp (by decide)⟩

/-- Truthiness of the session id read from a header or cookie: in the
source both an absent value and the empty string are falsy. -/
def jsTruthy : Option String → Bool
  | none => false
  | some s => !(s == "")

/-- Storage call performed by the session middleware. -/
inductive MwAction
  | createSession (sessionId : String)
  | updateActivity (sessionId : String)
deriving DecidableEq

/-- Result of one middleware run: the id attached to the request, the
storage actions performed, the value echoed in the session response
header, and the cookie set when one is. -/
structure MiddlewareResult where
  resolvedId : String
  actions : List MwAction
  responseSessionHeader : String
  cookieSet : Option String
deriving DecidableEq

/-- Model of createSessionMiddleware in shared/schema.ts: read the
session id from the request header, fall back to the cookie, generate a
fresh id when both are falsy (creating the session and setting the
cookie), otherwise create the session when the id is unknown to storage
and update its last activity when it is known; attach the id to the
request and echo it in the session response header.  The storage lookup
is abstracted by the predicate sessionExists, and the nanoid call by the
freshId argument. -/
def sessionMiddleware (header cookie : Option String) (freshId : String)
    (sessionExists : String → Bool) : MiddlewareResult :=
  let sessionId := if jsTruthy header then header else cookie
  if jsTruthy sessionId then
    let sid := sessionId.getD ""
    if sessionExists sid then
      { resolvedId := sid, actions := [.updateActivity sid],
        responseSessionHeader := sid, cookieSet := none }
    else
      { resolvedId := sid, actions := [.createSession sid],
        responseSessionHeader := sid, cookieSet := none }
  else
    { resolvedId := freshId, actions := [.createSession freshId],
      responseSessionHeader := freshId, cookieSet := some freshId }

/-- C6: the middleware resolves the session id from the request header
first, then from the cookie; when neither is present it uses the fresh
21-character generated id, creates the session and sets the cookie; a
present id unknown to storage gets its session created, a known one an
activity update; and in every case the resolved id is attached to the
request and echoed in the session response header. -/
theorem spec_C6 (header cookie : Option String) (freshId : String)
    (sessionExists : String → Bool) (hf : freshId.length = 21) :
    (sessionMiddleware header cookie freshId sessionExists).responseSessionHeader =
      (sessionMiddleware header cookie freshId sessionExists).resolvedId ∧
    (jsTruthy header = true →
      (sessionMiddleware header cookie freshId sessionExists).resolvedId = header.getD "" ∧
      (sessionMiddleware header cookie freshId sessionExists).cookieSet = none) ∧
    (jsTruthy header = false → jsTruthy cookie = true →
      (sessionMiddleware header cookie freshId sessionExists).resolvedId = cookie.getD "" ∧
      (sessionMiddleware header cookie freshId sessionExists).cookieSet = none) ∧
    (jsTruthy header = false → jsTruthy cookie = false →
      (sessionMiddleware header cookie freshId sessionExists).resolvedId = freshId ∧
      (sessionMiddleware header cookie freshId sessionExists).resolvedId.length = 21 ∧
      (sessionMiddleware header cookie freshId sessionExists).actions =
        [.createSession freshId] ∧
      (sessionMiddleware header cookie freshId sessionExists).cookieSet = some freshId) ∧
    ((jsTruthy header = true ∨ jsTruthy cookie = true) →
      (sessionExists (sessionMiddleware header cookie freshId sessionExists).resolvedId =
          true →
        (sessionMiddleware header cookie freshId sessionExists).actions =
          [.updateActivity
            (sessionMiddleware header cookie freshId sessionExists).resolvedId]) ∧
      (sessionExists (sessionMiddleware header cookie freshId sessionExists).resolvedId =
          false →
        (sessionMiddleware header cookie freshId sessionExists).actions =
          [.createSession
            (sessionMiddleware header cookie freshId sessionExists).resolvedId])) := by
  unfold sessionMiddleware
  by_cases hh : jsTruthy header = true
  · by_cases he : sessionExists (header.getD "") = true
    · simp [hh, he]
    · simp [hh, he]
  · rw [Bool.not_eq_true] at hh
    by_cases hc : jsTruthy cookie = true
    · by_cases he : sessionExists (cookie.getD "") = true
      · simp [hh, hc, he]
      · simp [hh, hc, he]
    · rw [Bool.not_eq_true] at hc
      simp [hh, hc, hf]

theorem spec_C6_witness :
    (sessionMiddleware none none "ABCDEFGHIJKLMNOPQRSTU"
        (fun _ => false)).resolvedId = "ABCDEFGHIJKLMNOPQRSTU" ∧
    (sessionMiddleware none none "ABCDEFGHIJKLMNOPQRSTU"
        (fun _ => false)).resolvedId.length = 21 ∧
    (sessionMiddleware none none "ABCDEFGHIJKLMNOPQRSTU"
        (fun _ => false)).actions = [.createSession "ABCDEFGHIJKLMNOPQRSTU"] ∧
    (sessionMiddleware none none "ABCDEFGHIJKLMNOPQRSTU"
        (fun _ => false)).cookieSet = some "ABCDEFGHIJKLMNOPQRSTU" :=
  (spec_C6 none none "ABCDEFGHIJKLMNOPQRSTU" (fun _ => false)
    (by decide)).2.2.2.1 (by decide) (by decide)

/-- Error raised inside a route handler body: the Zod validation error
thrown by a schema parse, or any other failure. -/
inductive ApiError
  | zod (msg : String)
  | failure (msg : String)
deriving DecidableEq

/-- HTTP response of a handler: status code and JSON message. -/
structure HttpResponse where
  status : Nat
  message : String
deriving DecidableEq

/-- The fifteen API routes registered by registerRoutes in
db-storage.ts. -/
inductive ApiRoute
  | getNotes
  | postNotes
  | deleteNoteById
  | deleteAllNotesRoute
  | getFolders
  | getNotesByFolder
  | getVariables
  | postVariables
  | putVariable
  | deleteVariableById
  | postVariableValue
  | postFolders
  | deleteFolder
  | exportText
  | exportJson
deriving DecidableEq

/-- Message carried by an error, as read by the catch arms that render
the message of an Error instance. -/
def errMessage : ApiError → String
  | .zod m => m
  | .failure m => m

/-- Routes whose try block begins by parsing the request body with a
Zod insert schema. -/
def usesZodParsing : ApiRoute → Bool
  | .postNotes => true
  | .postVariables => true
  | .putVariable => true
  | _ => false

/-- Catch clause of each route handler, transcribed from registerRoutes:
on the three parsing routes a Zod error yields status 400 with the
validation message, and every other thrown error yields status 500 with
a JSON error message.  No catch clause recovers, retries, rolls back or
re-throws. -/
def routeCatchResponse : ApiRoute → ApiError → HttpResponse
  | .getNotes, _ => ⟨500, "Failed to fetch notes"⟩
  | .postNotes, .zod _ => ⟨400, "Invalid note data"⟩
  | .postNotes, .failure _ => ⟨500, "Failed to create note"⟩
  | .deleteNoteById, e => ⟨500, errMessage e⟩
  | .deleteAllNotesRoute, _ => ⟨500, "Failed to delete notes"⟩
  | .getFolders, _ => ⟨500, "Failed to fetch folders"⟩
  | .getNotesByFolder, _ => ⟨500, "Failed to fetch notes by folder"⟩
  | .getVariables, _ => ⟨500, "Failed to fetch variables"⟩
  | .postVariables, .zod _ => ⟨400, "Invalid variable data"⟩
  | .postVariables, .failure _ => ⟨500, "Failed to create variable"⟩
  | .putVariable, .zod _ => ⟨400, "Invalid variable data"⟩
  | .putVariable, .failure m => ⟨500, m⟩
  | .deleteVariableById, e => ⟨500, errMessage e⟩
  | .postVariableValue, e => ⟨500, errMessage e⟩
  | .postFolders, e => ⟨500, errMessage e⟩
  | .deleteFolder, e => ⟨500, errMessage e⟩
  | .exportText, _ => ⟨500, "Failed to export notes"⟩
  | .exportJson, _ => ⟨500, "Failed to export notes"⟩

/-- A route handler runs its whole body inside try/catch: a successful
body yields the JSON response with status 200, and a thrown error is
mapped by the catch clause and never re-thrown. -/
def runRoute (r : ApiRoute) (outcome : Except ApiError String) : HttpResponse :=
  match outcome with
  | .ok body => ⟨200, body⟩
  | .error e => routeCatchResponse r e

/-- C7: on every route, a thrown handler body produces exactly the
response of that route's catch clause, whose status is always 500 or
400; status 400 arises exactly on the three Zod-parsing routes for a Zod
validation error; and the error is never re-thrown (runRoute is total,
mapping every outcome to a response with no recovery logic). -/
theorem spec_C7 :
    (∀ r e, runRoute r (.error e) = routeCatchResponse r e) ∧
    (∀ r e, (runRoute r (.error e)).status = 500 ∨
      (runRoute r (.error e)).status = 400) ∧
    (∀ r e, (runRoute r (.error e)).status = 400 →
      usesZodParsing r = true ∧ ∃ m, e = ApiError.zod m) ∧
    (∀ r m, usesZodParsing r = true →
      (runRoute r (.error (.zod m))).status = 400) := by
  refine ⟨fun r e => rfl, ?_, ?_, ?_⟩
  · intro r e
    cases r <;> cases e <;> simp [runRoute, routeCatchResponse]
  · intro r e
    cases r <;> cases e <;> simp [runRoute, routeCatchResponse, usesZodParsing]
  · intro r m h
    cases r <;> simp_all [runRoute, routeCatchResponse, usesZodParsing]

theorem spec_C7_witness :
    (runRoute .postNotes (.error (.zod "bad body"))).status = 400 ∧
    ((runRoute .getNotes (.error (.failure "db down"))).status = 500 ∨
      (runRoute .getNotes (.error (.failure "db down"))).status = 400) :=
  ⟨spec_C7.2.2.2 .postNotes "bad body" (by decide),
   spec_C7.2.1 .getNotes (.failure "db down")⟩

/-- Kind of an autocomplete option: a variable name or one of its
values. -/
inductive AcOptionType
  | variableOpt
  | valueOpt
deriving DecidableEq

/-- Entry of the filteredOptions list of handleInputChange.  The source
field named variable is called varRef here because variable is a
reserved word in Lean. -/
structure AcOption where
  type : AcOptionType
  varRef : Variable
  value : Option String
  matchedText : String
deriving DecidableEq

/-- JavaScript includes on strings: contiguous substring test. -/
def listIncludes (sub : List Char) : List Char → Bool
  | [] => sub.isEmpty
  | c :: rest => sub.isPrefixOf (c :: rest) || listIncludes sub rest

/-- Candidate options in push order, as built by handleInputChange: for
each variable in array order, its name when the lower-cased name
contains the search term, then each of its values whose lower-cased
text contains the search term. -/
def buildOptions (vars : List Variable) (searchTerm : List Char) : List AcOption :=
  vars.flatMap fun v =>
    (if listIncludes searchTerm (jsLower v.name.data) then
      [{ type := .variableOpt, varRef := v, value := none, matchedText := v.name }]
    else []) ++
    (v.values.flatMap fun val =>
      if listIncludes searchTerm (jsLower val.data) then
        [{ type := .valueOpt, varRef := v, value := some val, matchedText := val }]
      else [])

/-- Relevance comparator of handleInputChange, transcribed from the
source: exact matches first, then texts starting with the search term,
then shorter texts first. -/
def acComparator (searchTerm : List Char) (a b : AcOption) : Int :=
  let aText := jsLower a.matchedText.data
  let bText := jsLower b.matchedText.data
  if aText = searchTerm ∧ bText ≠ searchTerm then -1
  else if bText = searchTerm ∧ aText ≠ searchTerm then 1
  else if searchTerm.isPrefixOf aText = true ∧ searchTerm.isPrefixOf bText = false then -1
  else if searchTerm.isPrefixOf bText = true ∧ searchTerm.isPrefixOf aText = false then 1
  else (aText.length : Int) - bText.length

/-- Sort relation induced by the comparator: a may be placed no later
than b exactly when the comparator is nonpositive on the pair. -/
def acLe (searchTerm : List Char) (a b : AcOption) : Prop :=
  acComparator searchTerm a b ≤ 0

instance (searchTerm : List Char) : DecidableRel (acLe searchTerm) := fun a b =>
  Int.decLe _ _

/-- Rank of an option text under the comparator: zero for an exact
match, one for a proper prefix match, two otherwise. -/
def acRank (searchTerm : List Char) (o : AcOption) : Nat :=
  if jsLower o.matchedText.data = searchTerm then 0
  else if searchTerm.isPrefixOf (jsLower o.matchedText.data) then 1
  else 2

/-- The comparator order is the lexicographic order on rank and then
text length: exact matches first, then prefix matches, then the rest,
ties broken by nondecreasing length. -/
theorem acLe_iff (t : List Char) (a b : AcOption) :
    acLe t a b ↔ (acRank t a < acRank t b ∨
      (acRank t a = acRank t b ∧
        (jsLower a.matchedText.data).length ≤ (jsLower b.matchedText.data).length)) := by
  have hta : t.isPrefixOf t = true := List.isPrefixOf_iff_prefix.mpr (List.prefix_refl t)
  by_cases ha0 : jsLower a.matchedText.data = t <;>
  by_cases hb0 : jsLower b.matchedText.data = t <;>
  by_cases hap : t.isPrefixOf (jsLower a.matchedText.data) = true <;>
  by_cases hbp : t.isPrefixOf (jsLower b.matchedText.data) = true <;>
  first
    | (exfalso; apply hap; rw [ha0]; exact hta)
    | (exfalso; apply hbp; rw [hb0]; exact hta)
    | (simp [acLe, acComparator, acRank, ha0, hb0, hap, hbp, hta] <;> omega)

theorem acLe_total (t : List Char) (a b : AcOption) : acLe t a b ∨ acLe t b a := by
  rw [acLe_iff, acLe_iff]
  omega

theorem acLe_trans (t : List Char) (a b c : AcOption)
    (hab : acLe t a b) (hbc : acLe t b c) : acLe t a c := by
  rw [acLe_iff] at hab hbc ⊢
  omega

/-- Index of the last occurrence of a character, as lastIndexOf. -/
def lastIdxOf (c : Char) : List Char → Option Nat
  | [] => none
  | x :: rest =>
    match lastIdxOf c rest with
    | some i => some (i + 1)
    | none => if x = c then some 0 else none

/-- Autocomplete state set by handleInputChange: whether the dropdown is
shown, its options, and the slash position. -/
structure AcState where
  showAutocomplete : Bool
  filteredOptions : List AcOption
  autocompletePosition : Nat
deriving DecidableEq

/-- Model of the autocomplete part of handleInputChange in
notes-area.tsx: take the text before the cursor, find its last slash
(no slash hides the dropdown), lower-case the text after the slash
(a space in it hides the dropdown), build the matching options, and
show the sorted options only when at least one matched; hidden states
are represented with an empty options list. -/
def handleInputChange (vars : List Variable) (value : List Char) (cursorPosition : Nat) :
    AcState :=
  let textBeforeCursor := value.take cursorPosition
  match lastIdxOf '/' textBeforeCursor with
  | none => { showAutocomplete := false, filteredOptions := [], autocompletePosition := 0 }
  | some lastSlashIndex =>
    let searchTerm := jsLower (textBeforeCursor.drop (lastSlashIndex + 1))
    if searchTerm.contains ' ' then
      { showAutocomplete := false, filteredOptions := [], autocompletePosition := 0 }
    else
      let options := buildOptions vars searchTerm
      if 0 < options.length then
        { showAutocomplete := true,
          filteredOptions := options.insertionSort (acLe searchTerm),
          autocompletePosition := lastSlashIndex }
      else { showAutocomplete := false, filteredOptions := [], autocompletePosition := 0 }

/-- C8 counterexample: with no variables defined, typing a lone slash
reference gives a space-free search term after the last slash, yet the
dropdown is hidden (the source hides it whenever the option list is
empty), contradicting the claim that it is shown whenever the text
between the last slash and the cursor contains no space. -/
theorem spec_C8_counterexample :
    lastIdxOf '/' ("/a".data.take 2) = some 0 ∧
    (jsLower (("/a".data.take 2).drop 1)).contains ' ' = false ∧
    (handleInputChange [] "/a".data 2).showAutocomplete = false := by decide

/-- C8 (amended): when the text between the last slash before the cursor
and the cursor contains no space, the dropdown is shown exactly when at
least one option matches, and it then contains exactly the variables
whose lower-cased name contains the search term plus the variable values
that contain it, sorted by the relevance comparator (exact matches
first, then prefix matches, then by nondecreasing length, as acLe_iff
states); when the search term contains a space or no slash precedes the
cursor, the dropdown is hidden. -/
theorem spec_C8 (vars : List Variable) (value : List Char) (cursorPosition : Nat) :
    (∀ lastSlashIndex, lastIdxOf '/' (value.take cursorPosition) = some lastSlashIndex →
      ((jsLower ((value.take cursorPosition).drop (lastSlashIndex + 1))).contains ' ' =
          true →
        (handleInputChange vars value cursorPosition).showAutocomplete = false) ∧
      ((jsLower ((value.take cursorPosition).drop (lastSlashIndex + 1))).contains ' ' =
          false →
        (handleInputChange vars value cursorPosition).showAutocomplete =
          !(buildOptions vars
            (jsLower ((value.take cursorPosition).drop (lastSlashIndex + 1)))).isEmpty ∧
        (buildOptions vars
            (jsLower ((value.take cursorPosition).drop (lastSlashIndex + 1))) ≠ [] →
          (handleInputChange vars value cursorPosition).showAutocomplete = true ∧
          (handleInputChange vars value cursorPosition).filteredOptions.Perm
            (buildOptions vars
              (jsLower ((value.take cursorPosition).drop (lastSlashIndex + 1)))) ∧
          (handleInputChange vars value cursorPosition).filteredOptions.Pairwise
            (acLe (jsLower ((value.take cursorPosition).drop (lastSlashIndex + 1)))) ∧
          (handleInputChange vars value cursorPosition).autocompletePosition =
            lastSlashIndex))) ∧
    (lastIdxOf '/' (value.take cursorPosition) = none →
      (handleInputChange vars value cursorPosition).showAutocomplete = false) ∧
    (∀ t : List Char, ∀ a b : AcOption, acLe t a b ↔ (acRank t a < acRank t b ∨
      (acRank t a = acRank t b ∧
        (jsLower a.matchedText.data).length ≤ (jsLower b.matchedText.data).length))) := by
  refine ⟨?_, ?_, acLe_iff⟩
  · intro lastSlashIndex hslash
    constructor
    · intro hspace
      simp only [handleInputChange]
      rw [hslash]
      have hs2 : ' ' ∈ jsLower ((value.take cursorPosition).drop (lastSlashIndex + 1)) := by
        simpa using hspace
      simp [hs2]
    · intro hspace
      simp only [handleInputChange]
      rw [hslash]
      simp only [hspace, Bool.false_eq_true, if_false]
      by_cases hne : buildOptions vars
          (jsLower ((value.take cursorPosition).drop (lastSlashIndex + 1))) = []
      · simp [hne]
      · have hlen : 0 < (buildOptions vars
            (jsLower ((value.take cursorPosition).drop (lastSlashIndex + 1)))).length :=
          List.length_pos.mpr hne
        simp only [hlen, if_true]
        refine ⟨by simp [List.isEmpty_iff, hne], ?_⟩
        intro _
        haveI : IsTotal AcOption (acLe (jsLower
            ((value.take cursorPosition).drop (lastSlashIndex + 1)))) :=
          ⟨acLe_total _⟩
        haveI : IsTrans AcOption (acLe (jsLower
            ((value.take cursorPosition).drop (lastSlashIndex + 1)))) :=
          ⟨acLe_trans _⟩
        exact ⟨by trivial, List.perm_insertionSort _ _, List.sorted_insertionSort _ _,
          by trivial⟩
  · intro hnone
    simp only [handleInputChange]
    rw [hnone]

theorem spec_C8_witness :
    (handleInputChange [demoUser] "/us".data 3).showAutocomplete = true ∧
    (handleInputChange [demoUser] "/us".data 3).filteredOptions.Perm
      (buildOptions [demoUser] (jsLower (("/us".data.take 3).drop 1))) ∧
    (handleInputChange [demoUser] "/us".data 3).filteredOptions.Pairwise
      (acLe (jsLower (("/us".data.take 3).drop 1))) ∧
    (handleInputChange [demoUser] "/us".data 3).autocompletePosition = 0 :=
  ((spec_C8 [demoUser] "/us".data 3).1 0 (by decide)).2 (by decide) |>.2 (by decide)

end NoteTimes
